import Mathlib

/-!
# Verification of the GEDCOM record engine

Shallow embedding of `src/genealogy_assistant/core/gedcom.py` (classes
`GedcomLine`, `GedcomRecord`, `GedcomValidationError`, `GedcomManager`) and of
the parts of `src/genealogy_assistant/core/models.py` the engine touches
(`GenealogyDate`, `Place`, `Name`, `Event`, `Person`, `Source`).

Modelling conventions:
* Python dicts are insertion-ordered association lists; overwriting a key
  keeps its position (`dinsert`).
* Python object aliasing (the same record object stored in `records` and in a
  typed index) is modelled by structural replacement: on every store built by
  the engine's own operations, two entries with equal content necessarily sit
  under the same key, so structural replacement coincides with identity-based
  mutation.
* Python string operations (`strip`, `\s`, `\d`, `lower`, `title`) are
  modelled at ASCII precision, which is exact for every value the engine
  manipulates in its file format.
* `GenealogyDate.from_string` does not exist in `models.py` (the class only
  defines `from_gedcom`), so a call to it raises `AttributeError`; it is
  embedded as a function that always returns `Except.error`.
* File I/O is out of the embedding: `load` is modelled on the list of lines
  of the file (`load_lines`), `save` returns the list of emitted lines.
-/

namespace Genealogy

/-! ## ASCII models of Python string primitives -/

/-- ASCII whitespace, the characters Python's `str.strip` and `\s` recognise
on the engine's data. -/
def pyIsSpace (c : Char) : Bool :=
  c = ' ' || c = '\t' || c = '\n' || c = '\r' || c = '\x0b' || c = '\x0c'

/-- `str.strip()` on a list of characters. -/
def pyStripL (cs : List Char) : List Char :=
  ((cs.dropWhile pyIsSpace).reverse.dropWhile pyIsSpace).reverse

/-- `str.strip()`. -/
def pyStrip (s : String) : String :=
  String.mk (pyStripL s.data)

/-- `str.split(sep)` for a single-character separator: split at every
occurrence, yielding one more part than separators. -/
def splitOnCharAux (c : Char) : List Char → List Char → List (List Char)
  | [], acc => [acc.reverse]
  | x :: rest, acc =>
    if x = c then acc.reverse :: splitOnCharAux c rest []
    else splitOnCharAux c rest (x :: acc)

/-- `str.split(sep)` on a string, single-character separator. -/
def splitOnChar (c : Char) (s : String) : List String :=
  (splitOnCharAux c s.data []).map String.mk

/-- `int()` on a nonempty run of ASCII digits. -/
def natOfDigits (ds : List Char) : Nat :=
  ds.foldl (fun a c => a * 10 + (c.toNat - 48)) 0

/-! ## GedcomLine -/

/-- A single parsed GEDCOM line (`GedcomLine` dataclass). -/
structure GedcomLine where
  level : Nat
  tag : String
  value : String := ""
  xref : Option String := none
deriving DecidableEq, Repr

/-- The optional xref group of the line regex, `(?:(@[^@]+@)\s+)?`: taken
exactly when an `@…@` block (nonempty interior, no inner `@`) is followed by
at least one whitespace character (which matches the regex's greedy
backtracking); returns the captured `@…@` text and the remaining input. -/
def parseXref : List Char → Option (String × List Char)
  | '@' :: t =>
    let core := t.takeWhile (fun c => !(c = '@'))
    match t.dropWhile (fun c => !(c = '@')) with
    | '@' :: t3 =>
      if core.isEmpty then none
      else if (t3.takeWhile pyIsSpace).isEmpty then none
      else some (String.mk ('@' :: (core ++ ['@'])), t3.dropWhile pyIsSpace)
    | _ => none
  | _ => none

/-- `GedcomLine.parse`: the regex
`^(\d+)\s+(?:(@[^@]+@)\s+)?(\S+)(?:\s+(.*))?$` applied to the stripped
line, rendered as a deterministic scanner. -/
def GedcomLine.parse (line : String) : Option GedcomLine :=
  let cs := pyStripL line.data
  if cs.isEmpty then none
  else
    let digits := cs.takeWhile Char.isDigit
    let rest1 := cs.dropWhile Char.isDigit
    if digits.isEmpty then none
    else if (rest1.takeWhile pyIsSpace).isEmpty then none
    else
      let rest2 := rest1.dropWhile pyIsSpace
      let xrefTry : Option (String × List Char) := parseXref rest2
      let xref : Option String := xrefTry.map (fun p => p.1)
      let rest3 : List Char := match xrefTry with
        | some p => p.2
        | none => rest2
      let tagCs := rest3.takeWhile (fun c => !(pyIsSpace c))
      let rest4 := rest3.dropWhile (fun c => !(pyIsSpace c))
      if tagCs.isEmpty then none
      else
        some { level := natOfDigits digits
               tag := String.mk tagCs
               value := String.mk (rest4.dropWhile pyIsSpace)
               xref := xref }

/-- `GedcomLine.to_string`. -/
def GedcomLine.to_string (l : GedcomLine) : String :=
  let parts := [toString l.level]
    ++ (match l.xref with | some x => [x] | none => [])
    ++ [l.tag]
    ++ (if l.value = "" then [] else [l.value])
  String.intercalate " " parts

/-! ## GedcomRecord -/

/-- A complete GEDCOM record (level 0 line plus subordinates). -/
structure GedcomRecord where
  id : Option String
  tag : String
  lines : List GedcomLine := []
deriving DecidableEq, Repr

/-- Loop body of `GedcomRecord.get_value`: linear scan with the
`current_level` / `current_match` state of the source.  `path.getD
(l.level - 1) ""` renders Python's `path[line.level - 1]`; the two agree on
every subordinate line (which has level ≥ 1). -/
def getValueAux (path : List String) : List GedcomLine → Nat → Bool → Option String
  | [], _, _ => none
  | l :: rest, currentLevel, currentMatch =>
    let cm := if l.level ≤ currentLevel && !currentMatch then true else currentMatch
    if cm then
      if l.level = path.length && l.tag = path.getLastD "" then some l.value
      else if l.level < path.length && l.tag = path.getD (l.level - 1) "" then
        getValueAux path rest l.level true
      else
        getValueAux path rest currentLevel false
    else
      getValueAux path rest currentLevel cm

/-- `GedcomRecord.get_value`. -/
def GedcomRecord.get_value (r : GedcomRecord) (path : List String) : Option String :=
  getValueAux path r.lines.tail 0 true

/-- Loop body of `GedcomRecord.get_all_values`; `parent = some ""` behaves
like Python's falsy empty parent tag. -/
def getAllValuesAux (tag : String) (parent : Option String) :
    List GedcomLine → Bool → List String
  | [], _ => []
  | l :: rest, inParent =>
    let inP := match parent with
      | some p =>
        if p ≠ "" && l.tag = p then true
        else if p ≠ "" && l.level = 1 && l.tag ≠ p then false
        else inParent
      | none => inParent
    (if inP && l.tag = tag then [l.value] else []) ++ getAllValuesAux tag parent rest inP

/-- `GedcomRecord.get_all_values`. -/
def GedcomRecord.get_all_values (r : GedcomRecord) (tag : String)
    (parent : Option String := none) : List String :=
  getAllValuesAux tag parent r.lines.tail parent.isNone

deriving instance DecidableEq for Except

/-! ## Validation errors and the manager -/

/-- `GedcomValidationError` dataclass. -/
structure GedcomValidationError where
  severity : String
  record_id : Option String
  line_number : Option Nat
  message : String
deriving DecidableEq, Repr

/-- Insertion-ordered dictionary lookup (Python `dict[key]` / `in`). -/
def dlookup (k : String) : List (String × GedcomRecord) → Option GedcomRecord
  | [] => none
  | (k', v) :: rest => if k' = k then some v else dlookup k rest

/-- Insertion-ordered dictionary write: overwriting keeps the position,
appending goes to the end (CPython dict semantics). -/
def dinsert (k : String) (v : GedcomRecord) :
    List (String × GedcomRecord) → List (String × GedcomRecord)
  | [] => [(k, v)]
  | (k', v') :: rest => if k' = k then (k, v) :: rest else (k', v') :: dinsert k v rest

/-- `GedcomManager` state (`__init__`). -/
structure GedcomManager where
  records : List (String × GedcomRecord) := []
  header : Option GedcomRecord := none
  trailer : Option GedcomRecord := none
  individuals : List (String × GedcomRecord) := []
  families : List (String × GedcomRecord) := []
  sources : List (String × GedcomRecord) := []
  repositories : List (String × GedcomRecord) := []
  errors : List GedcomValidationError := []
  warnings : List GedcomValidationError := []
  next_indi_id : Nat := 1
  next_fam_id : Nat := 1
  next_sour_id : Nat := 1
  next_repo_id : Nat := 1
deriving DecidableEq, Repr

/-- A freshly constructed `GedcomManager()`. -/
def newManager : GedcomManager := {}

/-- `current_record.id or current_record.tag` (Python `or`, so an empty id
falls back to the tag). -/
def recordKey (r : GedcomRecord) : String :=
  match r.id with
  | some i => if i = "" then r.tag else i
  | none => r.tag

/-- State of the `_parse` loop.  `self.header` / `self.trailer` in the
source alias the record object still being built, and lines appended later
are visible through them; here the two flags record that the current record
*is* the header/trailer, and the references are synchronised when the record
is flushed (the only point after which they are read). -/
structure ParseState where
  records : List (String × GedcomRecord)
  header : Option GedcomRecord
  trailer : Option GedcomRecord
  current : Option GedcomRecord
  currentIsHeader : Bool
  currentIsTrailer : Bool
deriving DecidableEq, Repr

/-- Flush the record being built into the records mapping and resynchronise
the header/trailer aliases. -/
def flushCurrent (st : ParseState) : ParseState :=
  match st.current with
  | none => st
  | some c =>
    { st with
      records := dinsert (recordKey c) c st.records
      header := if st.currentIsHeader then some c else st.header
      trailer := if st.currentIsTrailer then some c else st.trailer
      current := none }

/-- One iteration of the `_parse` loop.  Note the source's
`tag=parsed.tag if not parsed.xref else parsed.value`: when an xref is
present the record's type tag is taken from the line's *value*. -/
def parseStep (st : ParseState) (line : String) : ParseState :=
  match GedcomLine.parse line with
  | none => st
  | some p =>
    if p.level = 0 then
      let st := flushCurrent st
      let rec0 : GedcomRecord :=
        { id := p.xref
          tag := match p.xref with
            | none => p.tag
            | some x => if x = "" then p.tag else p.value
          lines := [p] }
      { records := st.records
        header := if p.tag = "HEAD" then some rec0 else st.header
        trailer := if p.tag = "TRLR" then some rec0 else st.trailer
        current := some rec0
        currentIsHeader := p.tag = "HEAD"
        currentIsTrailer := p.tag = "TRLR" }
    else
      match st.current with
      | some c => { st with current := some { c with lines := c.lines ++ [p] } }
      | none => st

/-- `_parse` over the file's lines (including the final flush). -/
def gedcomParse (m : GedcomManager) (ls : List String) : GedcomManager :=
  let st := flushCurrent (ls.foldl parseStep
    { records := m.records, header := m.header, trailer := m.trailer, current := none
      currentIsHeader := false, currentIsTrailer := false })
  { m with records := st.records, header := st.header, trailer := st.trailer }

/-- `_build_indexes`. -/
def build_indexes (m : GedcomManager) : GedcomManager :=
  m.records.foldl (fun m kv =>
    if kv.2.tag = "INDI" then { m with individuals := dinsert kv.1 kv.2 m.individuals }
    else if kv.2.tag = "FAM" then { m with families := dinsert kv.1 kv.2 m.families }
    else if kv.2.tag = "SOUR" then { m with sources := dinsert kv.1 kv.2 m.sources }
    else if kv.2.tag = "REPO" then { m with repositories := dinsert kv.1 kv.2 m.repositories }
    else m) m

/-- `re.match(r'@I(\d+)@', key)` style prefix match: `@`, the type letter, a
nonempty digit run, `@`, anything after. -/
def idSuffix (letter : Char) (key : String) : Option Nat :=
  match key.data with
  | '@' :: c :: rest =>
    if c = letter then
      let digits := rest.takeWhile Char.isDigit
      if digits.isEmpty then none
      else match rest.dropWhile Char.isDigit with
        | '@' :: _ => some (natOfDigits digits)
        | _ => none
    else none
  | _ => none

/-- `_update_id_counters`. -/
def update_id_counters (m : GedcomManager) : GedcomManager :=
  { m with
    next_indi_id := m.individuals.foldl
      (fun acc kv => match idSuffix 'I' kv.1 with | some n => max acc (n + 1) | none => acc)
      m.next_indi_id
    next_fam_id := m.families.foldl
      (fun acc kv => match idSuffix 'F' kv.1 with | some n => max acc (n + 1) | none => acc)
      m.next_fam_id
    next_sour_id := m.sources.foldl
      (fun acc kv => match idSuffix 'S' kv.1 with | some n => max acc (n + 1) | none => acc)
      m.next_sour_id
    next_repo_id := m.repositories.foldl
      (fun acc kv => match idSuffix 'R' kv.1 with | some n => max acc (n + 1) | none => acc)
      m.next_repo_id }

/-- `load` on the lines of the file (file I/O stripped away). -/
def load_lines (m : GedcomManager) (ls : List String) : GedcomManager :=
  update_id_counters (build_indexes (gedcomParse m ls))

/-- `get_next_individual_id`. -/
def get_next_individual_id (m : GedcomManager) : String × GedcomManager :=
  ("@I" ++ toString m.next_indi_id ++ "@", { m with next_indi_id := m.next_indi_id + 1 })

/-- `get_next_family_id`. -/
def get_next_family_id (m : GedcomManager) : String × GedcomManager :=
  ("@F" ++ toString m.next_fam_id ++ "@", { m with next_fam_id := m.next_fam_id + 1 })

/-- `get_next_source_id`. -/
def get_next_source_id (m : GedcomManager) : String × GedcomManager :=
  ("@S" ++ toString m.next_sour_id ++ "@", { m with next_sour_id := m.next_sour_id + 1 })

/-! ## Domain model (models.py, the parts the engine uses) -/

/-- `GenealogyDate`; the `modifier` field carries the `DateModifier` enum's
value string (`"exact"`, `"ABT"`, `"BEF"`, `"AFT"`, `"BET"`, `"CAL"`,
`"EST"`). -/
structure GenealogyDate where
  year : Option Nat := none
  month : Option Nat := none
  day : Option Nat := none
  modifier : String := "exact"
  end_year : Option Nat := none
  end_month : Option Nat := none
  end_day : Option Nat := none
  original_text : Option String := none
deriving DecidableEq, Repr

/-- Python truthiness of an optional int field. -/
def optNatTruthy : Option Nat → Bool
  | some n => !(n = 0)
  | none => false

/-- Python truthiness of an optional string field. -/
def optStrTruthy : Option String → Bool
  | some s => !(s = "")
  | none => false

/-- The month-abbreviation table of `GenealogyDate.to_gedcom`. -/
def monthNames : List String :=
  ["JAN", "FEB", "MAR", "APR", "MAY", "JUN", "JUL", "AUG", "SEP", "OCT", "NOV", "DEC"]

/-- `GenealogyDate.to_gedcom` (pydantic validates `month ≤ 12`, so the
out-of-range table default is unreachable on real values). -/
def GenealogyDate.to_gedcom (d : GenealogyDate) : String :=
  let parts : List String :=
    (if d.modifier = "exact" then [] else [d.modifier])
    ++ (if optNatTruthy d.day then [toString (d.day.getD 0)] else [])
    ++ (if optNatTruthy d.month then [monthNames.getD (d.month.getD 1 - 1) "?"] else [])
    ++ (if optNatTruthy d.year then [toString (d.year.getD 0)] else [])
  let parts := parts ++
    (if d.modifier = "BET" && optNatTruthy d.end_year then
      ["AND"]
      ++ (if optNatTruthy d.end_day then [toString (d.end_day.getD 0)] else [])
      ++ (if optNatTruthy d.end_month then [monthNames.getD (d.end_month.getD 1 - 1) "?"] else [])
      ++ [toString (d.end_year.getD 0)]
    else [])
  String.intercalate " " parts

/-- `GenealogyDate.from_string` does not exist: `models.py` only defines
`from_gedcom`, so this attribute access raises `AttributeError` at runtime.
Embedded as an always-failing call. -/
def geneaDateFromString (_s : String) : Except String GenealogyDate :=
  .error "AttributeError: type object GenealogyDate has no attribute from_string"

/-- `Place` (the fields the engine reads and writes). -/
structure Place where
  name : String
  city : Option String := none
  county : Option String := none
  state : Option String := none
  country : Option String := none
deriving DecidableEq, Repr

/-- `Place.to_gedcom`. -/
def Place.to_gedcom (p : Place) : String := p.name

/-- `Place.from_string`. -/
def Place.from_string (s : String) : Place :=
  let parts := (splitOnChar ',' s).map pyStrip
  if parts.length = 2 then
    { name := s, city := parts.get? 0, country := parts.get? 1 }
  else if parts.length = 3 then
    { name := s, city := parts.get? 0, state := parts.get? 1, country := parts.get? 2 }
  else
    { name := s, city := parts.get? 0, county := parts.get? 1,
      state := parts.get? 2, country := parts.get? 3 }

/-- `Name` (the fields the engine uses; `suffix`/`prefix`/`maiden_name` and
the citation metadata never reach the GEDCOM layer). -/
structure Name where
  given : String
  surname : String
  nickname : Option String := none
  name_type : String := "birth"
deriving DecidableEq, Repr

/-- `Name.gedcom_name`. -/
def Name.gedcom_name (n : Name) : String := n.given ++ " /" ++ n.surname ++ "/"

/-- `Event` (the fields the engine uses). -/
structure Event where
  event_type : String
  date : Option GenealogyDate := none
  place : Option Place := none
deriving DecidableEq, Repr

/-- `Person` (the fields the engine uses). -/
structure Person where
  gedcom_id : Option String := none
  names : List Name := []
  sex : String := "U"
  birth : Option Event := none
  death : Option Event := none
  parent_family_ids : List String := []
  spouse_family_ids : List String := []
deriving DecidableEq, Repr

/-- `Person.primary_name`: the first birth-type name, else the first name. -/
def Person.primary_name (p : Person) : Option Name :=
  match p.names.find? (fun n => n.name_type = "birth") with
  | some n => some n
  | none => p.names.head?

/-- `Source` (the fields `add_source` reads). -/
structure Source where
  title : String
  author : Option String := none
  publisher : Option String := none
  repository : Option String := none
  notes : Option String := none
deriving DecidableEq, Repr

/-! ## Mutators -/

/-- `add_person`. -/
def add_person (m : GedcomManager) (person : Person) : String × GedcomManager :=
  let step : String × GedcomManager := match person.gedcom_id with
    | some s => if s = "" then get_next_individual_id m else (s, m)
    | none => get_next_individual_id m
  let gid := step.1
  let m := step.2
  let lines : List GedcomLine :=
    [{ level := 0, tag := "INDI", xref := some gid }]
    ++ (match person.primary_name with
        | some name =>
          [{ level := 1, tag := "NAME", value := name.gedcom_name },
           { level := 2, tag := "GIVN", value := name.given },
           { level := 2, tag := "SURN", value := name.surname }]
          ++ (if optStrTruthy name.nickname then
                [{ level := 2, tag := "NICK", value := name.nickname.getD "" }]
              else [])
        | none => [])
    ++ [{ level := 1, tag := "SEX", value := person.sex }]
    ++ (match person.birth with
        | some b =>
          [{ level := 1, tag := "BIRT" }]
          ++ (match b.date with
              | some d => [{ level := 2, tag := "DATE", value := d.to_gedcom }]
              | none => [])
          ++ (match b.place with
              | some pl => [{ level := 2, tag := "PLAC", value := pl.to_gedcom }]
              | none => [])
        | none => [])
    ++ (match person.death with
        | some dth =>
          [{ level := 1, tag := "DEAT" }]
          ++ (match dth.date with
              | some d => [{ level := 2, tag := "DATE", value := d.to_gedcom }]
              | none => [])
          ++ (match dth.place with
              | some pl => [{ level := 2, tag := "PLAC", value := pl.to_gedcom }]
              | none => [])
        | none => [])
  let record : GedcomRecord := { id := some gid, tag := "INDI", lines := lines }
  (gid, { m with records := dinsert gid record m.records
                 individuals := dinsert gid record m.individuals })

/-- Structural replacement of a record in an association list.  Models
Python's in-place mutation of a shared record object: on every store the
engine itself builds, a dictionary entry's key is a function of the record's
content (`id or tag`), so two entries with equal content share their key and
structural replacement coincides with identity-based mutation. -/
def replaceEntries (old new : GedcomRecord) (l : List (String × GedcomRecord)) :
    List (String × GedcomRecord) :=
  l.map (fun kv => (kv.1, if kv.2 = old then new else kv.2))

/-- Propagate the in-place mutation of a record object to every alias the
manager holds. -/
def replaceRec (m : GedcomManager) (old new : GedcomRecord) : GedcomManager :=
  { m with
    records := replaceEntries old new m.records
    individuals := replaceEntries old new m.individuals
    families := replaceEntries old new m.families
    sources := replaceEntries old new m.sources
    repositories := replaceEntries old new m.repositories
    header := if m.header = some old then some new else m.header
    trailer := if m.trailer = some old then some new else m.trailer }

/-- `_add_fams_link`: append a FAMS line to the individual's record if the
individual exists, silently skip otherwise. -/
def add_fams_link (m : GedcomManager) (indi_id fam_id : String) : GedcomManager :=
  match dlookup indi_id m.individuals with
  | none => m
  | some r =>
    replaceRec m r { r with lines := r.lines ++ [{ level := 1, tag := "FAMS", value := fam_id }] }

/-- `_add_famc_link`. -/
def add_famc_link (m : GedcomManager) (indi_id fam_id : String) : GedcomManager :=
  match dlookup indi_id m.individuals with
  | none => m
  | some r =>
    replaceRec m r { r with lines := r.lines ++ [{ level := 1, tag := "FAMC", value := fam_id }] }

/-- `add_family`. -/
def add_family (m : GedcomManager) (husband_id wife_id : Option String)
    (children_ids : Option (List String)) (marriage_date : Option GenealogyDate)
    (marriage_place : Option Place) : String × GedcomManager :=
  let step := get_next_family_id m
  let gid := step.1
  let m := step.2
  let lines : List GedcomLine := [{ level := 0, tag := "FAM", xref := some gid }]
  let lines := lines ++
    (if optStrTruthy husband_id then
      [{ level := 1, tag := "HUSB", value := husband_id.getD "" }] else [])
  let m := if optStrTruthy husband_id then add_fams_link m (husband_id.getD "") gid else m
  let lines := lines ++
    (if optStrTruthy wife_id then
      [{ level := 1, tag := "WIFE", value := wife_id.getD "" }] else [])
  let m := if optStrTruthy wife_id then add_fams_link m (wife_id.getD "") gid else m
  let lines := lines ++
    (if marriage_date.isSome || marriage_place.isSome then
      [{ level := 1, tag := "MARR" }]
      ++ (match marriage_date with
          | some d => [{ level := 2, tag := "DATE", value := d.to_gedcom }]
          | none => [])
      ++ (match marriage_place with
          | some pl => [{ level := 2, tag := "PLAC", value := pl.to_gedcom }]
          | none => [])
    else [])
  let kids : List String := match children_ids with
    | some cs => if cs = [] then [] else cs
    | none => []
  -- the source's single child loop appends a `1 CHIL c` line and applies the
  -- FAMC patch per child; the line accumulator and the store accumulator are
  -- independent, so the loop is rendered as the appended line list plus a
  -- fold of the patches
  let lines := lines ++ kids.map (fun child_id =>
    { level := 1, tag := "CHIL", value := child_id })
  let m := kids.foldl (fun mm child_id => add_famc_link mm child_id gid) m
  let record : GedcomRecord := { id := some gid, tag := "FAM", lines := lines }
  (gid, { m with records := dinsert gid record m.records
                 families := dinsert gid record m.families })

/-- `add_source`. -/
def add_source (m : GedcomManager) (source : Source) : String × GedcomManager :=
  let step := get_next_source_id m
  let gid := step.1
  let m := step.2
  let lines : List GedcomLine :=
    [{ level := 0, tag := "SOUR", xref := some gid },
     { level := 1, tag := "TITL", value := source.title }]
    ++ (if optStrTruthy source.author then
        [{ level := 1, tag := "AUTH", value := source.author.getD "" }] else [])
    ++ (if optStrTruthy source.publisher then
        [{ level := 1, tag := "PUBL", value := source.publisher.getD "" }] else [])
    ++ (if optStrTruthy source.notes then
        [{ level := 1, tag := "NOTE", value := source.notes.getD "" }] else [])
  let record : GedcomRecord := { id := some gid, tag := "SOUR", lines := lines }
  (gid, { m with records := dinsert gid record m.records
                 sources := dinsert gid record m.sources })

/-! ## Validator -/

/-- `_validate_ids` loop with its accumulated id set. -/
def validateIdsAux : List (String × GedcomRecord) → List String → List GedcomValidationError
  | [], _ => []
  | (_, r) :: rest, seen =>
    match r.id with
    | some i =>
      if i = "" then validateIdsAux rest seen
      else
        (if i ∈ seen then
          [{ severity := "error", record_id := some i, line_number := none,
             message := "Duplicate ID: " ++ i }]
         else []) ++ validateIdsAux rest (i :: seen)
    | none => validateIdsAux rest seen

/-- `_validate_ids`. -/
def validate_ids (m : GedcomManager) : List GedcomValidationError :=
  validateIdsAux m.records []

/-- FAMC loop of `_validate_links`, errors. -/
def famcErrors (m : GedcomManager) : List GedcomValidationError :=
  m.individuals.flatMap (fun kv =>
    (kv.2.get_all_values "FAMC").flatMap (fun fam_ref =>
      if (dlookup fam_ref m.families).isNone then
        [{ severity := "error", record_id := some kv.1, line_number := none,
           message := "FAMC references non-existent family: " ++ fam_ref }]
      else []))

/-- FAMC loop of `_validate_links`, warnings. -/
def famcWarnings (m : GedcomManager) : List GedcomValidationError :=
  m.individuals.flatMap (fun kv =>
    (kv.2.get_all_values "FAMC").flatMap (fun fam_ref =>
      match dlookup fam_ref m.families with
      | none => []
      | some family =>
        if kv.1 ∈ family.get_all_values "CHIL" then []
        else
          [{ severity := "warning", record_id := some kv.1, line_number := none,
             message := "FAMC " ++ fam_ref ++ " does not list this person as CHIL" }]))

/-- FAMS loop of `_validate_links`. -/
def famsErrors (m : GedcomManager) : List GedcomValidationError :=
  m.individuals.flatMap (fun kv =>
    (kv.2.get_all_values "FAMS").flatMap (fun fam_ref =>
      if (dlookup fam_ref m.families).isNone then
        [{ severity := "error", record_id := some kv.1, line_number := none,
           message := "FAMS references non-existent family: " ++ fam_ref }]
      else []))

/-- Family spouse/child loop of `_validate_links`. -/
def famLinkErrors (m : GedcomManager) : List GedcomValidationError :=
  m.families.flatMap (fun kv =>
    let husb := kv.2.get_all_values "HUSB"
    let wife := kv.2.get_all_values "WIFE"
    let children := kv.2.get_all_values "CHIL"
    ((husb ++ wife).flatMap (fun spouse_ref =>
      if (dlookup spouse_ref m.individuals).isNone then
        [{ severity := "error", record_id := some kv.1, line_number := none,
           message := "Spouse references non-existent individual: " ++ spouse_ref }]
      else []))
    ++ (children.flatMap (fun child_ref =>
      if (dlookup child_ref m.individuals).isNone then
        [{ severity := "error", record_id := some kv.1, line_number := none,
           message := "CHIL references non-existent individual: " ++ child_ref }]
      else [])))

/-! The date regex
`^(ABT|BEF|AFT|BET|CAL|EST)?\s*(\d{1,2})?\s*(MONTH)?\s*(\d{4})?(\s+AND\s+.*)?$`
with `re.IGNORECASE`, rendered as an explicit search over all ways the
optional groups and the `\s*` runs can split the input (regex matching is
existence of one such split). -/

/-- Case-insensitive literal prefix: drop `pat` (given uppercase) from the
front of `cs`, comparing uppercased characters. -/
def ciPrefixDrop : List Char → List Char → Option (List Char)
  | [], rest => some rest
  | p :: ps, c :: rest => if c.toUpper = p then ciPrefixDrop ps rest else none
  | _ :: _, [] => none

/-- All remainders `\s*` can leave. -/
def wsAlternatives : List Char → List (List Char)
  | [] => [[]]
  | c :: rest => (c :: rest) :: (if pyIsSpace c then wsAlternatives rest else [])

/-- The six modifier tokens. -/
def dateModifiers : List (List Char) :=
  [['A','B','T'], ['B','E','F'], ['A','F','T'], ['B','E','T'], ['C','A','L'], ['E','S','T']]

/-- Remainders after the optional modifier group. -/
def modAlternatives (cs : List Char) : List (List Char) :=
  cs :: dateModifiers.filterMap (fun p => ciPrefixDrop p cs)

/-- Remainders after the optional `(\d{1,2})?` group. -/
def dayAlternatives (cs : List Char) : List (List Char) :=
  cs :: (match cs with
         | a :: rest1 =>
           if a.isDigit then
             rest1 :: (match rest1 with
                       | b :: rest2 => if b.isDigit then [rest2] else []
                       | [] => [])
           else []
         | [] => [])

/-- Remainders after the optional month-name group. -/
def monthAlternatives (cs : List Char) : List (List Char) :=
  cs :: (monthNames.map String.data).filterMap (fun p => ciPrefixDrop p cs)

/-- Remainders after the optional `(\d{4})?` group. -/
def yearAlternatives (cs : List Char) : List (List Char) :=
  cs :: (match cs with
         | a :: b :: c :: d :: rest =>
           if a.isDigit && b.isDigit && c.isDigit && d.isDigit then [rest] else []
         | _ => [])

/-- The `(\s+AND\s+.*)?$` tail: one-or-more whitespace, `AND`
(case-insensitive), one-or-more whitespace, then anything to the end of the
line (line values contain no newline). -/
def andGroupMatch (cs : List Char) : Bool :=
  match cs with
  | c :: rest =>
    pyIsSpace c &&
    (wsAlternatives rest).any (fun r1 =>
      match ciPrefixDrop ['A','N','D'] r1 with
      | some r2 =>
        match r2 with
        | c2 :: _ => pyIsSpace c2
        | [] => false
      | none => false)
  | [] => false

/-- Whether `date_pattern.match(value)` succeeds. -/
def date_pattern_match (s : String) : Bool :=
  let p1 := modAlternatives s.data
  let p2 := p1.flatMap wsAlternatives
  let p3 := p2.flatMap dayAlternatives
  let p4 := p3.flatMap wsAlternatives
  let p5 := p4.flatMap monthAlternatives
  let p6 := p5.flatMap wsAlternatives
  let p7 := p6.flatMap yearAlternatives
  p7.any (fun cs => cs.isEmpty || andGroupMatch cs)

/-- `_validate_dates`. -/
def date_warnings (m : GedcomManager) : List GedcomValidationError :=
  m.records.flatMap (fun kv =>
    kv.2.lines.flatMap (fun line =>
      if line.tag = "DATE" && line.value ≠ "" && !(date_pattern_match line.value) then
        [{ severity := "warning", record_id := some kv.1, line_number := none,
           message := "Non-standard date format: " ++ line.value }]
      else []))

/-- `validate`: errors accumulated in source order, then warnings. -/
def validate (m : GedcomManager) : List GedcomValidationError :=
  (validate_ids m ++ famcErrors m ++ famsErrors m ++ famLinkErrors m)
  ++ (famcWarnings m ++ date_warnings m)

/-! ## Serializer -/

/-- `_update_header`, with the two `strftime` results passed in as values
(the engine formats `datetime.now()` as `DD MMM YYYY` and `HH:MM:SS`). -/
def update_header (m : GedcomManager) (nowDate nowTime : String) : GedcomManager :=
  match m.header with
  | none => m
  | some h =>
    let h' : GedcomRecord :=
      { h with lines := h.lines.map (fun l =>
          if l.tag = "DATE" then { l with value := nowDate }
          else if l.tag = "TIME" then { l with value := nowTime }
          else l) }
    replaceRec m h h'

/-- `_write_record`. -/
def write_record (r : GedcomRecord) : List String :=
  r.lines.map GedcomLine.to_string

/-- `save`, returning the emitted lines together with the mutated manager
(the header refresh mutates shared record state). -/
def save_lines (m : GedcomManager) (nowDate nowTime : String) (updateHeader : Bool) :
    List String × GedcomManager :=
  let m := if updateHeader then update_header m nowDate nowTime else m
  let headerOut := match m.header with
    | some h => write_record h
    | none => []
  let bodyOut := m.records.flatMap (fun kv =>
    if (match m.header with | some h => !(kv.2 = h) | none => true)
       && (match m.trailer with | some t => !(kv.2 = t) | none => true) then
      write_record kv.2
    else [])
  (headerOut ++ bodyOut ++ ["0 TRLR"], m)

/-! ## Domain converter (`get_person`) -/

/-- `record.lines.index(line)`: index of the first structurally equal
occurrence (callers pass a member of the list). -/
def indexOfLine (lines : List GedcomLine) (l : GedcomLine) : Nat :=
  (lines.findIdx? (fun x => x = l)).getD 0

/-- Inner subline scan of a BIRT/DEAT block: starting at the event line
itself, stop at the first later line whose level drops to or below the event
line's level; a DATE subline calls the missing `GenealogyDate.from_string`
(an `AttributeError`), a PLAC subline parses a place. -/
def scanEventBlock (l : GedcomLine) :
    List GedcomLine → Option GenealogyDate × Option Place →
    Except String (Option GenealogyDate × Option Place)
  | [], st => .ok st
  | sub :: rest, st =>
    if sub.level ≤ l.level && !(sub = l) then .ok st
    else
      match (if sub.tag = "DATE" then
              match geneaDateFromString sub.value with
              | .ok d => .ok (some d, st.2)
              | .error e => .error e
             else .ok st : Except String (Option GenealogyDate × Option Place)) with
      | .error e => .error e
      | .ok st2 =>
        scanEventBlock l rest
          (if sub.tag = "PLAC" then (st2.1, some (Place.from_string sub.value)) else st2)

/-- Outer loop of the BIRT/DEAT handling: every line with the event tag
triggers a scan starting at that line's first structural occurrence. -/
def eventScan (allLines : List GedcomLine) (t : String) :
    List GedcomLine → Option GenealogyDate × Option Place →
    Except String (Option GenealogyDate × Option Place)
  | [], st => .ok st
  | l :: rest, st =>
    if l.tag = t then
      match scanEventBlock l (allLines.drop (indexOfLine allLines l)) st with
      | .error e => .error e
      | .ok st2 => eventScan allLines t rest st2
    else eventScan allLines t rest st

/-- The name regex `^([^/]*)\s*/([^/]*)/(.*)$` reduced to: at least two
slashes; group 1 is the text before the first slash, group 2 the text between
the first two (the caller strips both). -/
def parseNameValue (nv : String) : Option (String × String) :=
  match splitOnChar '/' nv with
  | g1 :: g2 :: _ :: _ => some (pyStrip g1, pyStrip g2)
  | _ => none

/-- `get_person`.  Python may raise (`AttributeError` via the missing
`GenealogyDate.from_string`), hence the `Except` result; `.ok none` is the
`None` return for an unknown id.  The FAMC/FAMS values are read by the source
but the assignment to the person is commented out ("type mismatch, for
illustration"), so the family-link lists stay empty. -/
def get_person (m : GedcomManager) (gedcom_id : String) : Except String (Option Person) :=
  match dlookup gedcom_id m.individuals with
  | none => .ok none
  | some record =>
    let names := (record.get_all_values "NAME").filterMap (fun nv =>
      (parseNameValue nv).map (fun gs => ({ given := gs.1, surname := gs.2 } : Name)))
    let person : Person := { gedcom_id := some gedcom_id, names := names }
    let person := match record.get_all_values "SEX" with
      | s :: _ => { person with sex := if s = "M" || s = "F" then s else "U" }
      | [] => person
    match eventScan record.lines "BIRT" record.lines (none, none) with
    | .error e => .error e
    | .ok bdp =>
      let person := if bdp.1.isSome || bdp.2.isSome then
          { person with birth := some { event_type := "BIRT", date := bdp.1, place := bdp.2 } }
        else person
      match eventScan record.lines "DEAT" record.lines (none, none) with
      | .error e => .error e
      | .ok ddp =>
        let person := if ddp.1.isSome || ddp.2.isSome then
            { person with death := some { event_type := "DEAT", date := ddp.1, place := ddp.2 } }
          else person
        .ok (some person)

/-- `get_statistics` result. -/
structure Statistics where
  individuals : Nat
  families : Nat
  sources : Nat
  repositories : Nat
  total_records : Nat
  errors : Nat
  warnings : Nat
deriving DecidableEq, Repr

/-- `get_statistics`. -/
def get_statistics (m : GedcomManager) : Statistics :=
  { individuals := m.individuals.length
    families := m.families.length
    sources := m.sources.length
    repositories := m.repositories.length
    total_records := m.records.length
    errors := m.errors.length
    warnings := m.warnings.length }

/-! ## Surname-variant generator -/

/-- `str.lower()` on a character list (ASCII; `Char.toLower` lowers exactly
`A`–`Z`, as CPython does on ASCII input). -/
def pyLowerL (cs : List Char) : List Char :=
  cs.map Char.toLower

/-- `str.lower()`. -/
def pyLower (s : String) : String :=
  String.mk (pyLowerL s.data)

/-- `str.title()` on a character list: an alphabetic character is uppercased
when it follows a non-alphabetic one and lowercased otherwise. -/
def pyTitleL : List Char → Bool → List Char
  | [], _ => []
  | c :: rest, prevAlpha =>
    if c.isAlpha then
      (if prevAlpha then c.toLower else c.toUpper) :: pyTitleL rest true
    else
      c :: pyTitleL rest false

/-- `str.title()`. -/
def pyTitle (s : String) : String :=
  String.mk (pyTitleL s.data false)

/-- Literal list prefix test. -/
def startsWithL : List Char → List Char → Bool
  | [], _ => true
  | _ :: _, [] => false
  | p :: ps, c :: rest => p = c && startsWithL ps rest

/-- Python's `pat in s` substring test. -/
def containsSub : List Char → List Char → Bool
  | cs, pat =>
    startsWithL pat cs ||
      (match cs with
       | [] => false
       | _ :: rest => containsSub rest pat)

/-- `str.replace(pat, repl)`: replace every non-overlapping occurrence, left
to right.  The engine never replaces an empty pattern; that case is rendered
as the identity scan. -/
def pyReplaceAll (pat repl : List Char) : List Char → List Char
  | [] => []
  | c :: rest =>
    if h : pat ≠ [] ∧ startsWithL pat (c :: rest) = true then
      repl ++ pyReplaceAll pat repl ((c :: rest).drop pat.length)
    else
      c :: pyReplaceAll pat repl rest
termination_by cs => cs.length
decreasing_by
  · simp only [List.length_drop, List.length_cons]
    have : 0 < pat.length := List.length_pos.mpr h.1
    omega
  · simp

/-- `str.replace(pat, repl, 1)`: replace only the first occurrence. -/
def pyReplace1 (pat repl : List Char) : List Char → List Char
  | [] => []
  | c :: rest =>
    if pat ≠ [] ∧ startsWithL pat (c :: rest) = true then
      repl ++ ((c :: rest).drop pat.length)
    else
      c :: pyReplace1 pat repl rest

/-- The fixed substitution table of `generate_name_variants`. -/
def substitutionPairs : List (String × String) :=
  [("ck", "k"), ("ck", "c"),
   ("x", "cks"), ("x", "ks"),
   ("ae", "a"), ("oe", "o"), ("ue", "u"),
   ("y", "ij"), ("ij", "y"),
   ("dt", "t"), ("dt", "d"),
   ("sch", "sh")]

/-- The consonants doubled/undoubled by `generate_name_variants`. -/
def doubleChars : List Char :=
  ['b', 'c', 'd', 'f', 'g', 'l', 'm', 'n', 'p', 'r', 's', 't']

/-- Python `set.add`: insert if absent (iteration order is irrelevant here
because the result is sorted). -/
def setAdd (v : String) (l : List String) : List String :=
  if v ∈ l then l else l ++ [v]

/-- Ascending insertion into a sorted list (code-point order, Python
`sorted`). -/
def strInsert (s : String) : List String → List String
  | [] => [s]
  | t :: rest => if t < s then t :: strInsert s rest else s :: t :: rest

/-- `sorted` on strings. -/
def strSort : List String → List String
  | [] => []
  | s :: rest => strInsert s (strSort rest)

/-- `generate_name_variants`. -/
def generate_name_variants (surname : String) : List String :=
  let lower := pyLowerL surname.data
  let variants := [surname]
  let variants := substitutionPairs.foldl (fun acc pr =>
    let o := pr.1.data
    let n := pr.2.data
    let acc := if containsSub lower o then setAdd (String.mk (pyReplaceAll o n lower)) acc
               else acc
    if containsSub lower n then setAdd (String.mk (pyReplaceAll n o lower)) acc
    else acc) variants
  let variants := doubleChars.foldl (fun acc ch =>
    let acc := if containsSub lower [ch, ch] then
                 setAdd (String.mk (pyReplaceAll [ch, ch] [ch] lower)) acc
               else acc
    if containsSub lower [ch] && !(containsSub lower [ch, ch]) then
      setAdd (String.mk (pyReplace1 [ch] [ch, ch] lower)) acc
    else acc) variants
  strSort (variants.map pyTitle)

end Genealogy

namespace Genealogy

/-! ## C1 scenario -/

/-- The C1 scenario file: three individuals `@I1@`…`@I3@` and one family
`@F1@` linking them. -/
def c1File : List String :=
  ["0 HEAD",
   "1 SOUR Genealogy Assistant",
   "0 @I1@ INDI",
   "1 NAME Jean /HERINCKX/",
   "1 FAMS @F1@",
   "0 @I2@ INDI",
   "1 NAME Marie /DE SMET/",
   "1 FAMS @F1@",
   "0 @I3@ INDI",
   "1 NAME Victor /HERINCKX/",
   "1 FAMC @F1@",
   "0 @F1@ FAM",
   "1 HUSB @I1@",
   "1 WIFE @I2@",
   "1 CHIL @I3@",
   "0 TRLR"]

/-- C1: the claim expects the individual counter to be seeded to 4 after
loading `@I1@`–`@I3@`, so that `add_person` returns `@I4@`.  The code instead
leaves the counter at 1 and returns `@I1@`: `_parse` takes an xref'd record's
type tag from the line's *value* (which is empty for `0 @I1@ INDI`), so the
individuals index stays empty and `_update_id_counters` sees nothing. -/
theorem c1_counter_not_seeded :
    (load_lines newManager c1File).individuals = []
    ∧ (load_lines newManager c1File).next_indi_id = 1
    ∧ (add_person (load_lines newManager c1File) {}).1 = "@I1@" := by
  refine ⟨by decide, by decide, by decide⟩

/-! ## C2: `get_person` on a record with a dated event -/

/-- A person carrying a birth date, as a caller would construct one. -/
def c2Person : Person :=
  { names := [{ given := "Jean", surname := "HERINCKX" }]
    birth := some { event_type := "BIRT"
                    date := some { year := some 1895, month := some 3, day := some 15 } } }

/-- The store after `add_person(c2Person)`; its record contains
`1 BIRT` / `2 DATE 15 MAR 1895`. -/
def c2Store : GedcomManager := (add_person newManager c2Person).2

/-- The record `add_person(c2Person)` stores. -/
def c2Record : GedcomRecord :=
  { id := some "@I1@", tag := "INDI"
    lines := [{ level := 0, tag := "INDI", xref := some "@I1@" },
              { level := 1, tag := "NAME", value := "Jean /HERINCKX/" },
              { level := 2, tag := "GIVN", value := "Jean" },
              { level := 2, tag := "SURN", value := "HERINCKX" },
              { level := 1, tag := "SEX", value := "U" },
              { level := 1, tag := "BIRT" },
              { level := 2, tag := "DATE", value := "15 MAR 1895" }] }

/-- C2: the claim says `get_person` returns a Person or None for every
individual record, including records with a BIRT structure carrying a DATE
subline, and never raises.  The code raises `AttributeError` on exactly those
records, because it calls `GenealogyDate.from_string`, which `models.py`
never defines (the parser it does define is `from_gedcom`). -/
theorem c2_get_person_raises :
    (add_person newManager c2Person).1 = "@I1@"
    ∧ dlookup "@I1@" c2Store.individuals = some c2Record
    ∧ ({ level := 2, tag := "DATE", value := "15 MAR 1895" } : GedcomLine) ∈ c2Record.lines
    ∧ get_person c2Store "@I1@"
        = .error "AttributeError: type object GenealogyDate has no attribute from_string" := by
  refine ⟨by decide, by decide, by decide, by rfl⟩

/-! ## C4: round trip on a file whose trailer line carries an xref -/

/-- One-line file whose level-0 line has an xref, tag `TRLR` and value
`INDI`: `_parse` both registers it as the trailer and (through the
tag-from-value slip) indexes it as an individual. -/
def c4File : List String := ["0 @X@ TRLR INDI"]

/-- C4: the claim says save-then-reload preserves the individual/family/
source counts of any loaded file.  For `c4File` the first load counts one
individual, but `save` drops the trailer record and emits a bare `0 TRLR`,
so the reload counts zero. -/
theorem c4_roundtrip_loses_record :
    (load_lines newManager c4File).individuals.length = 1
    ∧ (save_lines (load_lines newManager c4File) "12 OCT 2026" "10:11:12" true).1 = ["0 TRLR"]
    ∧ (load_lines newManager
        (save_lines (load_lines newManager c4File) "12 OCT 2026" "10:11:12" true).1).individuals.length
      = 0 := by
  refine ⟨by decide, by decide, by decide⟩

/-! ## C5: `get_value` versus the exact-path semantics -/

/-- The chain `[(k, t1), (k+1, t2), …]` of scope levels and tags. -/
def chainOf : Nat → List String → List (Nat × String)
  | _, [] => []
  | k, t :: ts => (k, t) :: chainOf (k + 1) ts

/-- Scan step for the claim's semantics, carrying the stack of currently
open scope-opening lines (innermost first). -/
def specGetValueAux (path : List String) :
    List GedcomLine → List (Nat × String) → Option String
  | [], _ => none
  | l :: rest, stack =>
    let anc := stack.dropWhile (fun p => l.level ≤ p.1)
    if l.level = path.length ∧ l.tag = path.getLastD ""
        ∧ anc.reverse = chainOf 1 path.dropLast then
      some l.value
    else
      specGetValueAux path rest ((l.level, l.tag) :: anc)

/-- Modelled from the spec's words (C5), for comparison with
`GedcomRecord.get_value`: the value of the first line in `lines[1:]` at level
`n` with tag `tn` whose enclosing scopes were opened, in order, by lines with
tags `t1…t(n-1)` at levels `1…n-1`; a line closes the current scope when its
level drops to or below the scope-opening level. -/
def spec_get_value (r : GedcomRecord) (path : List String) : Option String :=
  specGetValueAux path r.lines.tail []

/-- A record whose only subline is `2 DATE 1900` (no enclosing BIRT scope) —
reachable by loading `0 @I1@ INDI` followed by `2 DATE 1900`. -/
def c5RecordA : GedcomRecord :=
  { id := some "@I1@", tag := "INDI"
    lines := [{ level := 0, tag := "INDI", xref := some "@I1@" },
              { level := 2, tag := "DATE", value := "1900" }] }

/-- A record with sublines `1 NAME n`, `1 BIRT`, `2 DATE 1900` — the usual
shape of a real individual record. -/
def c5RecordB : GedcomRecord :=
  { id := some "@I1@", tag := "INDI"
    lines := [{ level := 0, tag := "INDI", xref := some "@I1@" },
              { level := 1, tag := "NAME", value := "n" },
              { level := 1, tag := "BIRT" },
              { level := 2, tag := "DATE", value := "1900" }] }

/-- C5 counterexample: `get_value` deviates from the exact level+tag-chain
semantics in both directions.  On `c5RecordA` it returns the DATE value with
no BIRT scope ever opened; on `c5RecordB` it returns None although a properly
nested `BIRT`→`DATE` chain exists (once `1 NAME` clears the match flag, the
flag can only reset on a line with level ≤ 0). -/
theorem c5_get_value_not_path_semantics :
    c5RecordA.get_value ["BIRT", "DATE"] = some "1900"
    ∧ spec_get_value c5RecordA ["BIRT", "DATE"] = none
    ∧ c5RecordB.get_value ["BIRT", "DATE"] = none
    ∧ spec_get_value c5RecordB ["BIRT", "DATE"] = some "1900" := by
  refine ⟨by decide, by decide, by decide, by decide⟩

/-! ## C3: `get_person` does not expose the family links -/

/-- The person inserted three times to build the C3 store. -/
def c3Person : Person := { names := [{ given := "Jean", surname := "HERINCKX" }] }

/-- Store with `@I1@`, `@I2@`, `@I3@` present in the individuals mapping. -/
def c3Store : GedcomManager :=
  (add_person (add_person (add_person newManager c3Person).2 c3Person).2 c3Person).2

/-- `add_family(husband=@I1@, wife=@I2@, children=[@I3@])` on that store. -/
def c3Result : String × GedcomManager :=
  add_family c3Store (some "@I1@") (some "@I2@") (some ["@I3@"]) none none

/-- The Person object `get_person` actually returns for `@I1@` afterwards. -/
def c3P1 : Person :=
  { gedcom_id := some "@I1@", names := [{ given := "Jean", surname := "HERINCKX" }] }

/-- The Person object `get_person` actually returns for `@I3@` afterwards. -/
def c3P3 : Person :=
  { gedcom_id := some "@I3@", names := [{ given := "Jean", surname := "HERINCKX" }] }

/-- C3 counterexample: after `add_family`, the Persons returned by
`get_person(@I1@)` and `get_person(@I3@)` carry *empty* spouse-family and
parent-family identifier lists — the source reads the FAMC/FAMS values but
the assignment to the person is commented out — so the new family identifier
`@F1@` is not among them. -/
theorem c3_person_hides_links :
    c3Result.1 = "@F1@"
    ∧ get_person c3Result.2 "@I1@" = .ok (some c3P1)
    ∧ c3P1.spouse_family_ids = []
    ∧ get_person c3Result.2 "@I3@" = .ok (some c3P3)
    ∧ c3P3.parent_family_ids = [] := by
  refine ⟨by decide, by decide, by decide, by decide, by decide⟩

/-! ## Dictionary and query lemmas -/

theorem dlookup_dinsert_self (k : String) (v : GedcomRecord)
    (l : List (String × GedcomRecord)) : dlookup k (dinsert k v l) = some v := by
  induction l with
  | nil => simp [dinsert, dlookup]
  | cons hd tl ih =>
    cases hd with
    | mk k' v' =>
      by_cases h : k' = k
      · simp [dinsert, dlookup, h]
      · simp [dinsert, dlookup, h, ih]

theorem dlookup_dinsert_ne {k k' : String} (h : k ≠ k') (v : GedcomRecord)
    (l : List (String × GedcomRecord)) : dlookup k (dinsert k' v l) = dlookup k l := by
  have hne : ¬ k' = k := fun hh => h hh.symm
  induction l with
  | nil => simp [dinsert, dlookup, hne]
  | cons hd tl ih =>
    cases hd with
    | mk ka va =>
      by_cases hk : ka = k'
      · subst hk
        simp [dinsert, dlookup, hne, h]
      · by_cases hk2 : ka = k
        · subst hk2
          simp [dinsert, dlookup, hk]
        · simp [dinsert, dlookup, hk, hk2, ih]

theorem mem_dinsert_self (k : String) (v : GedcomRecord)
    (l : List (String × GedcomRecord)) : (k, v) ∈ dinsert k v l := by
  induction l with
  | nil => simp [dinsert]
  | cons hd tl ih =>
    cases hd with
    | mk ka va =>
      by_cases hk : ka = k <;> simp [dinsert, hk, ih]

theorem dlookup_replaceEntries (k : String) (old new : GedcomRecord)
    (l : List (String × GedcomRecord)) :
    dlookup k (replaceEntries old new l)
      = (dlookup k l).map (fun v => if v = old then new else v) := by
  induction l with
  | nil => simp [replaceEntries, dlookup]
  | cons hd tl ih =>
    cases hd with
    | mk ka va =>
      by_cases hk : ka = k
      · by_cases hv : va = old <;> simp [replaceEntries, dlookup, hk, hv]
      · by_cases hv : va = old <;>
          simpa [replaceEntries, dlookup, hk, hv] using ih

theorem getAllValuesAux_none_true (tag : String) (ls : List GedcomLine) :
    getAllValuesAux tag none ls true
      = (ls.filter (fun l => decide (l.tag = tag))).map GedcomLine.value := by
  induction ls with
  | nil => simp [getAllValuesAux]
  | cons l rest ih =>
    by_cases h : l.tag = tag <;> simp [getAllValuesAux, h, ih, List.filter]

/-- Membership in `get_all_values` without a parent tag is exactly a matching
subordinate line. -/
theorem mem_get_all_values_none {r : GedcomRecord} {tag v : String} :
    v ∈ r.get_all_values tag none ↔ ∃ l ∈ r.lines.tail, l.tag = tag ∧ l.value = v := by
  unfold GedcomRecord.get_all_values
  rw [show (none : Option String).isNone = true from rfl, getAllValuesAux_none_true]
  simp only [List.mem_map, List.mem_filter, decide_eq_true_eq]
  constructor
  · rintro ⟨l, ⟨hl, ht⟩, hv⟩
    exact ⟨l, hl, ht, hv⟩
  · rintro ⟨l, hl, ht, hv⟩
    exact ⟨l, ⟨hl, ht⟩, hv⟩

theorem mem_tail_append {l : GedcomLine} {xs ys : List GedcomLine}
    (h : l ∈ xs.tail) : l ∈ (xs ++ ys).tail := by
  cases xs with
  | nil => simp at h
  | cons x rest => simp only [List.tail_cons, List.cons_append] at *; exact List.mem_append_left _ h

theorem mem_tail_append_right {l : GedcomLine} {xs : List GedcomLine} (ys : List GedcomLine)
    (hx : xs ≠ []) (h : l ∈ ys) : l ∈ (xs ++ ys).tail := by
  cases xs with
  | nil => exact absurd rfl hx
  | cons x rest => simp only [List.cons_append, List.tail_cons]; exact List.mem_append_right _ h

/-! ## Link-patch lemmas -/

/-- The record stored for `i` after `_add_fams_link(i, g)` is the old record
with a `1 FAMS g` line appended. -/
theorem add_fams_link_self {m : GedcomManager} {i : String} {r : GedcomRecord}
    (g : String) (h : dlookup i m.individuals = some r) :
    dlookup i (add_fams_link m i g).individuals
      = some { r with lines := r.lines ++ [{ level := 1, tag := "FAMS", value := g }] } := by
  unfold add_fams_link
  rw [h]
  simp [replaceRec, dlookup_replaceEntries, h]

/-- `_add_fams_link` at worst appends lines to any individual entry. -/
theorem add_fams_link_extend {m : GedcomManager} {k : String} {r : GedcomRecord}
    (i g : String) (h : dlookup k m.individuals = some r) :
    ∃ r', dlookup k (add_fams_link m i g).individuals = some r'
      ∧ ∃ t, r'.lines = r.lines ++ t := by
  unfold add_fams_link
  cases hi : dlookup i m.individuals with
  | none => exact ⟨r, h, [], by simp⟩
  | some ri =>
    by_cases hri : r = ri
    · refine ⟨{ ri with lines := ri.lines ++ [{ level := 1, tag := "FAMS", value := g }] },
        ?_, [{ level := 1, tag := "FAMS", value := g }], by rw [hri]⟩
      simp [replaceRec, dlookup_replaceEntries, h, hri]
    · refine ⟨r, ?_, [], by simp⟩
      simp [replaceRec, dlookup_replaceEntries, h, hri]

/-- The record stored for `i` after `_add_famc_link(i, g)`. -/
theorem add_famc_link_self {m : GedcomManager} {i : String} {r : GedcomRecord}
    (g : String) (h : dlookup i m.individuals = some r) :
    dlookup i (add_famc_link m i g).individuals
      = some { r with lines := r.lines ++ [{ level := 1, tag := "FAMC", value := g }] } := by
  unfold add_famc_link
  rw [h]
  simp [replaceRec, dlookup_replaceEntries, h]

/-- `_add_famc_link` at worst appends lines to any individual entry. -/
theorem add_famc_link_extend {m : GedcomManager} {k : String} {r : GedcomRecord}
    (i g : String) (h : dlookup k m.individuals = some r) :
    ∃ r', dlookup k (add_famc_link m i g).individuals = some r'
      ∧ ∃ t, r'.lines = r.lines ++ t := by
  unfold add_famc_link
  cases hi : dlookup i m.individuals with
  | none => exact ⟨r, h, [], by simp⟩
  | some ri =>
    by_cases hri : r = ri
    · refine ⟨{ ri with lines := ri.lines ++ [{ level := 1, tag := "FAMC", value := g }] },
        ?_, [{ level := 1, tag := "FAMC", value := g }], by rw [hri]⟩
      simp [replaceRec, dlookup_replaceEntries, h, hri]
    · refine ⟨r, ?_, [], by simp⟩
      simp [replaceRec, dlookup_replaceEntries, h, hri]

/-- Shape of `add_family(H, W, [C])`: the returned identifier and the effect
on the individuals index (two FAMS patches and one FAMC patch, applied in
source order). -/
theorem add_family_sub (m : GedcomManager) (H W C : String)
    (hH : optStrTruthy (some H) = true) (hW : optStrTruthy (some W) = true) :
    (add_family m (some H) (some W) (some [C]) none none).1
        = "@F" ++ toString m.next_fam_id ++ "@"
    ∧ (add_family m (some H) (some W) (some [C]) none none).2.individuals
        = (add_famc_link
            (add_fams_link
              (add_fams_link { m with next_fam_id := m.next_fam_id + 1 } H
                ("@F" ++ toString m.next_fam_id ++ "@"))
              W ("@F" ++ toString m.next_fam_id ++ "@"))
            C ("@F" ++ toString m.next_fam_id ++ "@")).individuals := by
  unfold add_family
  simp [hH, hW, get_next_family_id]

/-- Nonempty line lists stay nonempty under appends. -/
theorem lines_ne_nil_append {xs : List GedcomLine} (t : List GedcomLine) (h : xs ≠ []) :
    xs ++ t ≠ [] := by
  cases xs with
  | nil => exact absurd rfl h
  | cons a b => simp

/-- C3 amended: after `add_family(husband_id=H, wife_id=W, children_ids=[C])`
returns family identifier F, the *stored records* of H and W each carry a
`FAMS` line valued F (F is among their `get_all_values("FAMS")`) and the
stored record of C carries a `FAMC` line valued F; but the `Person` object
returned by `get_person` does not expose these links (its family-identifier
lists stay empty — see the counterexample). -/
theorem c3_records_carry_links (m : GedcomManager) (H W C : String)
    (rh rw rc : GedcomRecord)
    (hH : dlookup H m.individuals = some rh) (hHl : rh.lines ≠ []) (hHne : H ≠ "")
    (hW : dlookup W m.individuals = some rw) (hWl : rw.lines ≠ []) (hWne : W ≠ "")
    (hC : dlookup C m.individuals = some rc) (hCl : rc.lines ≠ []) :
    (∃ r, dlookup H (add_family m (some H) (some W) (some [C]) none none).2.individuals = some r
      ∧ (add_family m (some H) (some W) (some [C]) none none).1 ∈ r.get_all_values "FAMS")
    ∧ (∃ r, dlookup W (add_family m (some H) (some W) (some [C]) none none).2.individuals = some r
      ∧ (add_family m (some H) (some W) (some [C]) none none).1 ∈ r.get_all_values "FAMS")
    ∧ (∃ r, dlookup C (add_family m (some H) (some W) (some [C]) none none).2.individuals = some r
      ∧ (add_family m (some H) (some W) (some [C]) none none).1 ∈ r.get_all_values "FAMC") := by
  have hoptH : optStrTruthy (some H) = true := by simp [optStrTruthy, hHne]
  have hoptW : optStrTruthy (some W) = true := by simp [optStrTruthy, hWne]
  obtain ⟨hfst, hsnd⟩ := add_family_sub m H W C hoptH hoptW
  rw [hfst, hsnd]
  set g := "@F" ++ toString m.next_fam_id ++ "@" with hg
  set m1 : GedcomManager := { m with next_fam_id := m.next_fam_id + 1 } with hm1
  have hH1 : dlookup H m1.individuals = some rh := hH
  have hW1 : dlookup W m1.individuals = some rw := hW
  have hC1 : dlookup C m1.individuals = some rc := hC
  set fams : GedcomLine := { level := 1, tag := "FAMS", value := g } with hfams
  set famc : GedcomLine := { level := 1, tag := "FAMC", value := g } with hfamc
  -- H: FAMS appended by the first patch, preserved by the later ones
  have h2 := add_fams_link_self g hH1
  have hmemH : fams ∈ (rh.lines ++ [fams]).tail :=
    mem_tail_append_right [fams] hHl (by simp)
  obtain ⟨rh2, hh3, t3, ht3⟩ := add_fams_link_extend W g h2
  obtain ⟨rh3, hh4, t4, ht4⟩ := add_famc_link_extend C g hh3
  refine ⟨⟨rh3, hh4, ?_⟩, ?_, ?_⟩
  · rw [mem_get_all_values_none]
    refine ⟨fams, ?_, by simp [hfams], by simp [hfams]⟩
    rw [ht4, ht3]
    exact mem_tail_append (mem_tail_append hmemH)
  -- W: preserved through the H patch, FAMS appended by the second patch
  · obtain ⟨rw1, hw2, s2, hs2⟩ := add_fams_link_extend H g hW1
    have hw3 := add_fams_link_self g hw2
    have hwne : rw1.lines ≠ [] := by
      rw [hs2]; exact lines_ne_nil_append s2 hWl
    have hmemW : fams ∈ (rw1.lines ++ [fams]).tail :=
      mem_tail_append_right [fams] hwne (by simp)
    obtain ⟨rw2, hw4, u4, hu4⟩ := add_famc_link_extend C g hw3
    refine ⟨rw2, hw4, ?_⟩
    rw [mem_get_all_values_none]
    refine ⟨fams, ?_, by simp [hfams], by simp [hfams]⟩
    rw [hu4]
    exact mem_tail_append hmemW
  -- C: preserved through both FAMS patches, FAMC appended last
  · obtain ⟨rc1, hc2, v2, hv2⟩ := add_fams_link_extend H g hC1
    obtain ⟨rc2, hc3, v3, hv3⟩ := add_fams_link_extend W g hc2
    have hc4 := add_famc_link_self g hc3
    have hcne : rc2.lines ≠ [] := by
      rw [hv3, hv2, List.append_assoc]
      exact lines_ne_nil_append (v2 ++ v3) hCl
    refine ⟨_, hc4, ?_⟩
    rw [mem_get_all_values_none]
    refine ⟨famc, ?_, by simp [hfamc], by simp [hfamc]⟩
    exact mem_tail_append_right [famc] hcne (by simp)

/-- The record `add_person(c3Person)` stores under identifier `i`. -/
def c3RecordOf (i : String) : GedcomRecord :=
  { id := some i, tag := "INDI"
    lines := [{ level := 0, tag := "INDI", xref := some i },
              { level := 1, tag := "NAME", value := "Jean /HERINCKX/" },
              { level := 2, tag := "GIVN", value := "Jean" },
              { level := 2, tag := "SURN", value := "HERINCKX" },
              { level := 1, tag := "SEX", value := "U" }] }

/-- Witness for the C3 amended theorem at the concrete three-person store. -/
theorem c3_records_carry_links_witness :
    (∃ r, dlookup "@I1@" (add_family c3Store (some "@I1@") (some "@I2@")
        (some ["@I3@"]) none none).2.individuals = some r
      ∧ (add_family c3Store (some "@I1@") (some "@I2@")
          (some ["@I3@"]) none none).1 ∈ r.get_all_values "FAMS")
    ∧ (∃ r, dlookup "@I3@" (add_family c3Store (some "@I1@") (some "@I2@")
        (some ["@I3@"]) none none).2.individuals = some r
      ∧ (add_family c3Store (some "@I1@") (some "@I2@")
          (some ["@I3@"]) none none).1 ∈ r.get_all_values "FAMC") := by
  have h := c3_records_carry_links c3Store "@I1@" "@I2@" "@I3@"
    (c3RecordOf "@I1@") (c3RecordOf "@I2@") (c3RecordOf "@I3@")
    (by decide) (by decide) (by decide) (by decide) (by decide) (by decide)
    (by decide) (by decide)
  exact ⟨h.1, h.2.2⟩

/-! ## C6: dangling references survive the mutation and are caught later -/

/-- The family record built by `add_family(children=[X])`. -/
def famChilRec (g X : String) : GedcomRecord :=
  { id := some g, tag := "FAM"
    lines := [{ level := 0, tag := "FAM", xref := some g },
              { level := 1, tag := "CHIL", value := X }] }

/-- The family record built by `add_family(husband=X)`. -/
def famHusbRec (g X : String) : GedcomRecord :=
  { id := some g, tag := "FAM"
    lines := [{ level := 0, tag := "FAM", xref := some g },
              { level := 1, tag := "HUSB", value := X }] }

/-- Shape of `add_family(children_ids=[X])` when `X` is not an individual:
the per-link patch is skipped and only the family record is inserted. -/
theorem add_family_child_only (m : GedcomManager) (X : String)
    (h : dlookup X m.individuals = none) :
    add_family m none none (some [X]) none none
      = ("@F" ++ toString m.next_fam_id ++ "@",
         { m with next_fam_id := m.next_fam_id + 1
                  records := dinsert ("@F" ++ toString m.next_fam_id ++ "@")
                    (famChilRec ("@F" ++ toString m.next_fam_id ++ "@") X) m.records
                  families := dinsert ("@F" ++ toString m.next_fam_id ++ "@")
                    (famChilRec ("@F" ++ toString m.next_fam_id ++ "@") X) m.families }) := by
  unfold add_family add_famc_link
  simp [h, get_next_family_id, optStrTruthy, famChilRec]

/-- Shape of `add_family(husband_id=X)` when `X` is not an individual. -/
theorem add_family_husb_only (m : GedcomManager) (X : String)
    (h : dlookup X m.individuals = none) (hne : X ≠ "") :
    add_family m (some X) none none none none
      = ("@F" ++ toString m.next_fam_id ++ "@",
         { m with next_fam_id := m.next_fam_id + 1
                  records := dinsert ("@F" ++ toString m.next_fam_id ++ "@")
                    (famHusbRec ("@F" ++ toString m.next_fam_id ++ "@") X) m.records
                  families := dinsert ("@F" ++ toString m.next_fam_id ++ "@")
                    (famHusbRec ("@F" ++ toString m.next_fam_id ++ "@") X) m.families }) := by
  unfold add_family add_fams_link
  simp [h, hne, get_next_family_id, optStrTruthy, famHusbRec]

/-- A family whose CHIL value is not an individual key contributes a
dangling-child error to `_validate_links`. -/
theorem famLinkErrors_mem_child {m : GedcomManager} {k X : String} {fam : GedcomRecord}
    (hmem : (k, fam) ∈ m.families) (hchil : X ∈ fam.get_all_values "CHIL")
    (hX : dlookup X m.individuals = none) :
    ({ severity := "error", record_id := some k, line_number := none,
       message := "CHIL references non-existent individual: " ++ X } : GedcomValidationError)
      ∈ famLinkErrors m := by
  unfold famLinkErrors
  rw [List.mem_flatMap]
  refine ⟨(k, fam), hmem, ?_⟩
  rw [List.mem_append]
  right
  rw [List.mem_flatMap]
  exact ⟨X, hchil, by simp [hX]⟩

/-- A family whose HUSB or WIFE value is not an individual key contributes a
dangling-spouse error to `_validate_links`. -/
theorem famLinkErrors_mem_spouse {m : GedcomManager} {k X : String} {fam : GedcomRecord}
    (hhusb : X ∈ fam.get_all_values "HUSB" ++ fam.get_all_values "WIFE")
    (hmem : (k, fam) ∈ m.families)
    (hX : dlookup X m.individuals = none) :
    ({ severity := "error", record_id := some k, line_number := none,
       message := "Spouse references non-existent individual: " ++ X } : GedcomValidationError)
      ∈ famLinkErrors m := by
  unfold famLinkErrors
  rw [List.mem_flatMap]
  refine ⟨(k, fam), hmem, ?_⟩
  rw [List.mem_append]
  left
  rw [List.mem_flatMap]
  exact ⟨X, hhusb, by simp [hX]⟩

/-- Every element of `famLinkErrors` is in the `validate` output. -/
theorem famLinkErrors_sub_validate {m : GedcomManager} {e : GedcomValidationError}
    (h : e ∈ famLinkErrors m) : e ∈ validate m := by
  unfold validate
  simp [h]

/-- C6: when `add_family` is called with a child (or spouse) identifier `X`
absent from the individuals mapping, the call completes and returns the
allocated family identifier, the family record still carries the CHIL (or
HUSB) line valued `X`, no individual record is touched (the per-link patch is
silently skipped), and a subsequent `validate()` reports an error-severity
issue naming `X`. -/
theorem c6_dangling_reference (m : GedcomManager) (X : String)
    (h : dlookup X m.individuals = none) (hne : X ≠ "") :
    ((add_family m none none (some [X]) none none).1
        = "@F" ++ toString m.next_fam_id ++ "@"
      ∧ (∃ fr, dlookup (add_family m none none (some [X]) none none).1
            (add_family m none none (some [X]) none none).2.families = some fr
          ∧ fr.get_all_values "CHIL" = [X])
      ∧ (add_family m none none (some [X]) none none).2.individuals = m.individuals
      ∧ ({ severity := "error"
           record_id := some (add_family m none none (some [X]) none none).1
           line_number := none
           message := "CHIL references non-existent individual: " ++ X } : GedcomValidationError)
          ∈ validate (add_family m none none (some [X]) none none).2)
    ∧ ((add_family m (some X) none none none none).1
        = "@F" ++ toString m.next_fam_id ++ "@"
      ∧ (∃ fr, dlookup (add_family m (some X) none none none none).1
            (add_family m (some X) none none none none).2.families = some fr
          ∧ fr.get_all_values "HUSB" = [X])
      ∧ (add_family m (some X) none none none none).2.individuals = m.individuals
      ∧ ({ severity := "error"
           record_id := some (add_family m (some X) none none none none).1
           line_number := none
           message := "Spouse references non-existent individual: " ++ X } : GedcomValidationError)
          ∈ validate (add_family m (some X) none none none none).2) := by
  constructor
  · rw [add_family_child_only m X h]
    refine ⟨rfl, ⟨famChilRec ("@F" ++ toString m.next_fam_id ++ "@") X,
      dlookup_dinsert_self _ _ _, ?_⟩, rfl, ?_⟩
    · simp [famChilRec, GedcomRecord.get_all_values, getAllValuesAux]
    · apply famLinkErrors_sub_validate
      apply famLinkErrors_mem_child (m := _) (mem_dinsert_self _ _ _)
      · simp [famChilRec, GedcomRecord.get_all_values, getAllValuesAux]
      · exact h
  · rw [add_family_husb_only m X h hne]
    refine ⟨rfl, ⟨famHusbRec ("@F" ++ toString m.next_fam_id ++ "@") X,
      dlookup_dinsert_self _ _ _, ?_⟩, rfl, ?_⟩
    · simp [famHusbRec, GedcomRecord.get_all_values, getAllValuesAux]
    · apply famLinkErrors_sub_validate
      apply famLinkErrors_mem_spouse (m := _) _ (mem_dinsert_self _ _ _)
      · exact h
      · apply List.mem_append_left
        simp [famHusbRec, GedcomRecord.get_all_values, getAllValuesAux]

/-- Witness for C6 on a fresh store and `X = @I9@`. -/
theorem c6_dangling_reference_witness :
    ({ severity := "error", record_id := some "@F1@", line_number := none
       message := "CHIL references non-existent individual: @I9@" } : GedcomValidationError)
      ∈ validate (add_family newManager none none (some ["@I9@"]) none none).2 := by
  have h := c6_dangling_reference newManager "@I9@" (by decide) (by decide)
  have h2 := h.1.2.2.2
  simpa using h2

/-! ## C7: how operations treat existing lines -/

/-- C7 counterexample: the claim says no operation modifies the value of any
Line already in the store.  `save(update_header=True)` does: the header's
DATE line — the same line object, observed through the store — has its value
rewritten from `01 JAN 1900` to the current timestamp. -/
theorem c7_counterexample :
    (load_lines newManager ["0 HEAD", "1 DATE 01 JAN 1900"]).header
      = some { id := none, tag := "HEAD"
               lines := [{ level := 0, tag := "HEAD" },
                         { level := 1, tag := "DATE", value := "01 JAN 1900" }] }
    ∧ (save_lines (load_lines newManager ["0 HEAD", "1 DATE 01 JAN 1900"])
        "12 OCT 2026" "10:11:12" true).2.header
      = some { id := none, tag := "HEAD"
               lines := [{ level := 0, tag := "HEAD" },
                         { level := 1, tag := "DATE", value := "12 OCT 2026" }] }
    ∧ ("12 OCT 2026" : String) ≠ "01 JAN 1900" := by
  refine ⟨by decide, by decide, by decide⟩


/-- The save-time relation between an original line and its image: level,
tag and xref are untouched, and the value is untouched unless the line is a
DATE or TIME line (the header refresh). -/
def lineFieldsPreserved (a b : GedcomLine) : Prop :=
  b.level = a.level ∧ b.tag = a.tag ∧ b.xref = a.xref
    ∧ (a.tag ≠ "DATE" → a.tag ≠ "TIME" → b.value = a.value)

theorem lineFieldsPreserved_refl (a : GedcomLine) : lineFieldsPreserved a a :=
  ⟨rfl, rfl, rfl, fun _ _ => rfl⟩

/-- `add_person` inserts one record and leaves every other key alone. -/
theorem add_person_records (m : GedcomManager) (p : Person) :
    ∃ rec, (add_person m p).2.records = dinsert (add_person m p).1 rec m.records := by
  unfold add_person get_next_individual_id
  cases hp : p.gedcom_id with
  | none => exact ⟨_, rfl⟩
  | some s =>
    by_cases hs : s = "" <;> simp only [hs, if_true, if_false, reduceIte] <;> exact ⟨_, rfl⟩

/-- `add_source` inserts one record and leaves every other key alone. -/
theorem add_source_records (m : GedcomManager) (s : Source) :
    ∃ rec, (add_source m s).2.records = dinsert (add_source m s).1 rec m.records := by
  unfold add_source get_next_source_id
  exact ⟨_, rfl⟩

/-- `_add_fams_link` at worst appends lines to entries of the all-records
mapping. -/
theorem add_fams_link_records_extend {m : GedcomManager} {k : String} {r : GedcomRecord}
    (i g : String) (h : dlookup k m.records = some r) :
    ∃ r', dlookup k (add_fams_link m i g).records = some r'
      ∧ ∃ t, r'.lines = r.lines ++ t := by
  unfold add_fams_link
  cases hi : dlookup i m.individuals with
  | none => exact ⟨r, h, [], by simp⟩
  | some ri =>
    by_cases hri : r = ri
    · refine ⟨{ ri with lines := ri.lines ++ [{ level := 1, tag := "FAMS", value := g }] },
        ?_, [{ level := 1, tag := "FAMS", value := g }], by rw [hri]⟩
      simp [replaceRec, dlookup_replaceEntries, h, hri]
    · refine ⟨r, ?_, [], by simp⟩
      simp [replaceRec, dlookup_replaceEntries, h, hri]

/-- `_add_famc_link` at worst appends lines to entries of the all-records
mapping. -/
theorem add_famc_link_records_extend {m : GedcomManager} {k : String} {r : GedcomRecord}
    (i g : String) (h : dlookup k m.records = some r) :
    ∃ r', dlookup k (add_famc_link m i g).records = some r'
      ∧ ∃ t, r'.lines = r.lines ++ t := by
  unfold add_famc_link
  cases hi : dlookup i m.individuals with
  | none => exact ⟨r, h, [], by simp⟩
  | some ri =>
    by_cases hri : r = ri
    · refine ⟨{ ri with lines := ri.lines ++ [{ level := 1, tag := "FAMC", value := g }] },
        ?_, [{ level := 1, tag := "FAMC", value := g }], by rw [hri]⟩
      simp [replaceRec, dlookup_replaceEntries, h, hri]
    · refine ⟨r, ?_, [], by simp⟩
      simp [replaceRec, dlookup_replaceEntries, h, hri]

/-- The child list `add_family` iterates over (`if children_ids:`). -/
def famKids (cs : Option (List String)) : List String :=
  match cs with
  | some l => if l = [] then [] else l
  | none => []

/-- Folding FAMC patches at worst appends lines to all-records entries. -/
theorem famc_fold_records_extend (g : String) (kids : List String) :
    ∀ (m : GedcomManager) (k : String) (r : GedcomRecord),
    dlookup k m.records = some r →
    ∃ r', dlookup k (kids.foldl (fun mm c => add_famc_link mm c g) m).records = some r'
      ∧ ∃ t, r'.lines = r.lines ++ t := by
  induction kids with
  | nil => intro m k r h; exact ⟨r, h, [], by simp⟩
  | cons c rest ih =>
    intro m k r h
    obtain ⟨r1, h1, t1, ht1⟩ := add_famc_link_records_extend c g h
    obtain ⟨r2, h2, t2, ht2⟩ := ih _ _ _ h1
    exact ⟨r2, h2, t1 ++ t2, by rw [ht2, ht1, List.append_assoc]⟩

/-- `add_family` at worst appends newly constructed lines to existing
records (and inserts the one new family record). -/
theorem add_family_records_extend (m : GedcomManager) (hid wid : Option String)
    (cs : Option (List String)) (md : Option GenealogyDate) (mp : Option Place)
    (k : String) (r : GedcomRecord)
    (hr : dlookup k m.records = some r)
    (hk : k ≠ (add_family m hid wid cs md mp).1) :
    ∃ r', dlookup k (add_family m hid wid cs md mp).2.records = some r'
      ∧ ∃ t, r'.lines = r.lines ++ t := by
  have hstep : ∀ (mm : GedcomManager) (i : Option String) (g : String) (r0 : GedcomRecord),
      dlookup k mm.records = some r0 →
      ∃ r', dlookup k (if optStrTruthy i = true then add_fams_link mm (i.getD "") g else mm).records
          = some r'
        ∧ ∃ t, r'.lines = r0.lines ++ t := by
    intro mm i g r0 h0
    by_cases hc : optStrTruthy i = true
    · rw [if_pos hc]; exact add_fams_link_records_extend _ g h0
    · rw [if_neg hc]; exact ⟨r0, h0, [], by simp⟩
  have hk' : k ≠ "@F" ++ toString m.next_fam_id ++ "@" := hk
  obtain ⟨r1, h1, t1, ht1⟩ :=
    hstep { m with next_fam_id := m.next_fam_id + 1 } hid
      ("@F" ++ toString m.next_fam_id ++ "@") r hr
  obtain ⟨r2, h2, t2, ht2⟩ := hstep _ wid ("@F" ++ toString m.next_fam_id ++ "@") r1 h1
  obtain ⟨r3, h3, t3, ht3⟩ :=
    famc_fold_records_extend ("@F" ++ toString m.next_fam_id ++ "@") (famKids cs) _ k r2 h2
  refine ⟨r3, ?_, t1 ++ (t2 ++ t3), by rw [ht3, ht2, ht1]; simp [List.append_assoc]⟩
  show dlookup k (dinsert ("@F" ++ toString m.next_fam_id ++ "@") _ _) = some r3
  rw [dlookup_dinsert_ne hk']
  exact h3

/-- The store after `save` has, at every key, a record whose lines preserve
level/tag/xref of the original lines and their values off DATE/TIME. -/
theorem save_records_preserved (m : GedcomManager) (nowDate nowTime : String) (upd : Bool)
    (k : String) (r : GedcomRecord) (hr : dlookup k m.records = some r) :
    ∃ r', dlookup k (save_lines m nowDate nowTime upd).2.records = some r'
      ∧ List.Forall₂ lineFieldsPreserved r.lines r'.lines := by
  have hsame : List.Forall₂ lineFieldsPreserved r.lines r.lines :=
    List.forall₂_same.mpr (fun a _ => lineFieldsPreserved_refl a)
  unfold save_lines
  cases upd with
  | false => exact ⟨r, hr, hsame⟩
  | true =>
    simp only [if_true, reduceIte]
    unfold update_header
    cases hh : m.header with
    | none => exact ⟨r, hr, hsame⟩
    | some h =>
      by_cases hrh : r = h
      · subst hrh
        refine ⟨{ r with lines := r.lines.map (fun l =>
            if l.tag = "DATE" then { l with value := nowDate }
            else if l.tag = "TIME" then { l with value := nowTime }
            else l) }, ?_, ?_⟩
        · show dlookup k (replaceEntries r _ m.records) = _
          rw [dlookup_replaceEntries, hr]
          simp
        · simp only
          rw [List.forall₂_map_right_iff]
          refine List.forall₂_same.mpr (fun a _ => ?_)
          by_cases hd : a.tag = "DATE"
          · exact ⟨by simp [hd], by simp [hd], by simp [hd], fun hcon _ => absurd hd hcon⟩
          · by_cases ht : a.tag = "TIME"
            · exact ⟨by simp [hd, ht], by simp [hd, ht], by simp [hd, ht],
                fun _ hcon => absurd ht hcon⟩
            · exact ⟨by simp [hd, ht], by simp [hd, ht], by simp [hd, ht],
                fun _ _ => by simp [hd, ht]⟩
      · refine ⟨r, ?_, hsame⟩
        show dlookup k (replaceEntries h _ m.records) = _
        rw [dlookup_replaceEntries, hr]
        simp [hrh]

/-- C7 amended: levels, tags and identifiers of lines already in the store
are never modified by any engine operation, and line *values* are modified
only by `save`'s header refresh, which rewrites the values of DATE/TIME
lines of the header record in place; `add_person`/`add_source` leave every
other record untouched, and `add_family` only appends newly constructed
lines to existing records.  (`validate` and the query operations do not
write to the store at all.) -/
theorem c7_existing_lines_stable (m : GedcomManager) :
    (∀ (p : Person) (k : String) (r : GedcomRecord), k ≠ (add_person m p).1 →
      dlookup k m.records = some r → dlookup k (add_person m p).2.records = some r)
    ∧ (∀ (s : Source) (k : String) (r : GedcomRecord), k ≠ (add_source m s).1 →
      dlookup k m.records = some r → dlookup k (add_source m s).2.records = some r)
    ∧ (∀ (hid wid : Option String) (cs : Option (List String)) (md : Option GenealogyDate)
        (mp : Option Place) (k : String) (r : GedcomRecord),
      dlookup k m.records = some r → k ≠ (add_family m hid wid cs md mp).1 →
      ∃ r', dlookup k (add_family m hid wid cs md mp).2.records = some r'
        ∧ ∃ t, r'.lines = r.lines ++ t)
    ∧ (∀ (nowDate nowTime : String) (upd : Bool) (k : String) (r : GedcomRecord),
      dlookup k m.records = some r →
      ∃ r', dlookup k (save_lines m nowDate nowTime upd).2.records = some r'
        ∧ List.Forall₂ lineFieldsPreserved r.lines r'.lines) := by
  refine ⟨?_, ?_, ?_, ?_⟩
  · intro p k r hk hr
    obtain ⟨rec, hrec⟩ := add_person_records m p
    rw [hrec, dlookup_dinsert_ne hk]
    exact hr
  · intro s k r hk hr
    obtain ⟨rec, hrec⟩ := add_source_records m s
    rw [hrec, dlookup_dinsert_ne hk]
    exact hr
  · intro hid wid cs md mp k r hr hk
    exact add_family_records_extend m hid wid cs md mp k r hr hk
  · intro nowDate nowTime upd k r hr
    exact save_records_preserved m nowDate nowTime upd k r hr

/-- Witness for the C7 amended theorem: the loaded header store, saved with a
fresh timestamp, still holds its HEAD record with level/tag/xref intact. -/
theorem c7_existing_lines_stable_witness :
    ∃ r', dlookup "HEAD"
        (save_lines (load_lines newManager ["0 HEAD", "1 DATE 01 JAN 1900"])
          "12 OCT 2026" "10:11:12" true).2.records = some r'
      ∧ List.Forall₂ lineFieldsPreserved
          [{ level := 0, tag := "HEAD" }, { level := 1, tag := "DATE", value := "01 JAN 1900" }]
          r'.lines := by
  have h := (c7_existing_lines_stable
      (load_lines newManager ["0 HEAD", "1 DATE 01 JAN 1900"])).2.2.2
    "12 OCT 2026" "10:11:12" true "HEAD"
    { id := none, tag := "HEAD"
      lines := [{ level := 0, tag := "HEAD" },
                { level := 1, tag := "DATE", value := "01 JAN 1900" }] }
    (by decide)
  exact h

/-! ## C8: shapes of the validator's issues -/

theorem mem_validate_cases {m : GedcomManager} {e : GedcomValidationError}
    (h : e ∈ validate m) :
    e ∈ validate_ids m ∨ e ∈ famcErrors m ∨ e ∈ famsErrors m ∨ e ∈ famLinkErrors m
    ∨ e ∈ famcWarnings m ∨ e ∈ date_warnings m := by
  unfold validate at h
  simp only [List.mem_append] at h
  tauto

theorem validateIdsAux_shape :
    ∀ (recs : List (String × GedcomRecord)) (seen : List String) (e : GedcomValidationError),
    e ∈ validateIdsAux recs seen →
    e.severity = "error" ∧ ∃ x, e.message = "Duplicate ID: " ++ x := by
  intro recs
  induction recs with
  | nil => intro seen e h; simp [validateIdsAux] at h
  | cons hd tl ih =>
    intro seen e h
    obtain ⟨k, r⟩ := hd
    cases hid : r.id with
    | none =>
      simp only [validateIdsAux, hid] at h
      exact ih _ _ h
    | some i =>
      simp only [validateIdsAux, hid] at h
      by_cases hi0 : i = ""
      · simp only [hi0, if_true, reduceIte] at h
        exact ih _ _ h
      · simp only [hi0, if_false, reduceIte] at h
        by_cases hmem : i ∈ seen
        · simp only [hmem, if_true, reduceIte, List.cons_append, List.nil_append,
            List.mem_cons] at h
          rcases h with h | h
          · subst h; exact ⟨rfl, i, rfl⟩
          · exact ih _ _ h
        · simp only [hmem, if_false, reduceIte, List.nil_append] at h
          exact ih _ _ h

theorem famcErrors_shape {m : GedcomManager} {e : GedcomValidationError}
    (h : e ∈ famcErrors m) :
    e.severity = "error" ∧ ∃ x, e.message = "FAMC references non-existent family: " ++ x := by
  unfold famcErrors at h
  rw [List.mem_flatMap] at h
  obtain ⟨kv, _, h2⟩ := h
  rw [List.mem_flatMap] at h2
  obtain ⟨x, _, h3⟩ := h2
  simp only [List.mem_ite_nil_right, List.mem_singleton] at h3
  obtain ⟨-, he⟩ := h3
  subst he; exact ⟨rfl, x, rfl⟩

theorem famsErrors_shape {m : GedcomManager} {e : GedcomValidationError}
    (h : e ∈ famsErrors m) :
    e.severity = "error" ∧ ∃ x, e.message = "FAMS references non-existent family: " ++ x := by
  unfold famsErrors at h
  rw [List.mem_flatMap] at h
  obtain ⟨kv, _, h2⟩ := h
  rw [List.mem_flatMap] at h2
  obtain ⟨x, _, h3⟩ := h2
  simp only [List.mem_ite_nil_right, List.mem_singleton] at h3
  obtain ⟨-, he⟩ := h3
  subst he; exact ⟨rfl, x, rfl⟩

theorem famLinkErrors_shape {m : GedcomManager} {e : GedcomValidationError}
    (h : e ∈ famLinkErrors m) :
    e.severity = "error"
    ∧ ∃ x, e.message = "Spouse references non-existent individual: " ++ x
        ∨ e.message = "CHIL references non-existent individual: " ++ x := by
  unfold famLinkErrors at h
  rw [List.mem_flatMap] at h
  obtain ⟨kv, _, h2⟩ := h
  rw [List.mem_append] at h2
  rcases h2 with h2 | h2 <;> rw [List.mem_flatMap] at h2 <;> obtain ⟨x, _, h3⟩ := h2
  · simp only [List.mem_ite_nil_right, List.mem_singleton] at h3
    obtain ⟨-, he⟩ := h3
    subst he; exact ⟨rfl, x, Or.inl rfl⟩
  · simp only [List.mem_ite_nil_right, List.mem_singleton] at h3
    obtain ⟨-, he⟩ := h3
    subst he; exact ⟨rfl, x, Or.inr rfl⟩

theorem famcWarnings_shape {m : GedcomManager} {e : GedcomValidationError}
    (h : e ∈ famcWarnings m) :
    e.severity = "warning" ∧ ∃ x, e.message = "FAMC " ++ x := by
  unfold famcWarnings at h
  rw [List.mem_flatMap] at h
  obtain ⟨kv, _, h2⟩ := h
  rw [List.mem_flatMap] at h2
  obtain ⟨x, _, h3⟩ := h2
  cases hc : dlookup x m.families with
  | none => simp [hc] at h3
  | some fam =>
    rw [hc] at h3
    by_cases hm : kv.1 ∈ fam.get_all_values "CHIL"
    · simp [hm] at h3
    · simp only [hm, if_false, reduceIte, List.mem_singleton] at h3
      subst h3
      exact ⟨rfl, x ++ " does not list this person as CHIL", by
        show "FAMC " ++ x ++ _ = _
        rw [String.append_assoc]⟩

theorem date_warnings_shape {m : GedcomManager} {e : GedcomValidationError}
    (h : e ∈ date_warnings m) :
    e.severity = "warning"
    ∧ ∃ v, e.message = "Non-standard date format: " ++ v
        ∧ date_pattern_match v = false := by
  unfold date_warnings at h
  rw [List.mem_flatMap] at h
  obtain ⟨kv, _, h2⟩ := h
  rw [List.mem_flatMap] at h2
  obtain ⟨line, _, h3⟩ := h2
  simp only [Bool.and_eq_true, Bool.not_eq_true', decide_eq_true_eq,
    List.mem_ite_nil_right, List.mem_singleton] at h3
  obtain ⟨⟨-, hp⟩, he⟩ := h3
  subst he
  exact ⟨rfl, line.value, rfl, hp⟩

theorem date_warnings_mem {m : GedcomManager} {k : String} {r : GedcomRecord}
    {line : GedcomLine} (hmem : (k, r) ∈ m.records) (hl : line ∈ r.lines)
    (ht : line.tag = "DATE") (hv : line.value ≠ "")
    (hp : date_pattern_match line.value = false) :
    ({ severity := "warning", record_id := some k, line_number := none,
       message := "Non-standard date format: " ++ line.value } : GedcomValidationError)
      ∈ date_warnings m := by
  unfold date_warnings
  rw [List.mem_flatMap]
  refine ⟨(k, r), hmem, ?_⟩
  rw [List.mem_flatMap]
  exact ⟨line, hl, by simp [ht, hv, hp]⟩

theorem date_warnings_sub_validate {m : GedcomManager} {e : GedcomValidationError}
    (h : e ∈ date_warnings m) : e ∈ validate m := by
  unfold validate
  simp [h]

/-- Strings with different head characters differ. -/
theorem string_head_ne {a b : String} {c d : Char}
    (ha : a.data.head? = some c) (hb : b.data.head? = some d) (hcd : c ≠ d) : a ≠ b := by
  intro h
  subst h
  rw [ha] at hb
  exact hcd (Option.some.inj hb)

/-- Appending preserves a nonempty head. -/
theorem string_append_head {p : String} (x : String) {c : Char}
    (hp : p.data.head? = some c) : (p ++ x).data.head? = some c := by
  rw [String.data_append]
  cases hd : p.data with
  | nil => rw [hd] at hp; cases hp
  | cons a t => rw [hd] at hp; simpa using hp

/-- Cancelling a common prefix of two string appends. -/
theorem string_append_cancel {p a b : String} (h : p ++ a = p ++ b) : a = b := by
  have hd : (p ++ a).data = (p ++ b).data := by rw [h]
  rw [String.data_append, String.data_append] at hd
  exact String.ext (List.append_cancel_left hd)

/-- A message starting with a non-`N` character is not a date warning. -/
theorem prefix_head_ne (c : Char) {p : String} (x : String) {q : String}
    (hp : p.data.head? = some c) (hq : q.data.head? = some 'N') (hc : c ≠ 'N') :
    p ++ x ≠ q :=
  string_head_ne (string_append_head x hp) hq hc

/-- C8: a record line `DATE ABT 1895` produces no issue at all (the date
grammar accepts it), while `DATE sometime last spring` produces exactly a
warning-severity issue and never an error-severity one. -/
theorem c8_date_grammar (m : GedcomManager) :
    (∀ e ∈ validate m, e.message ≠ "Non-standard date format: ABT 1895")
    ∧ (∀ (k : String) (r : GedcomRecord) (line : GedcomLine),
        (k, r) ∈ m.records → line ∈ r.lines → line.tag = "DATE" →
        line.value = "sometime last spring" →
        ({ severity := "warning", record_id := some k, line_number := none,
           message := "Non-standard date format: sometime last spring" } :
            GedcomValidationError) ∈ validate m)
    ∧ (∀ e ∈ validate m, e.severity = "error" →
        e.message ≠ "Non-standard date format: sometime last spring") := by
  have hN : ("Non-standard date format: " : String).data.head? = some 'N' := by decide
  refine ⟨?_, ?_, ?_⟩
  · intro e he
    rcases mem_validate_cases he with h | h | h | h | h | h
    · obtain ⟨_, x, hx⟩ := validateIdsAux_shape _ _ _ h
      rw [hx]
      exact prefix_head_ne 'D' x (by decide) hN (by decide)
    · obtain ⟨_, x, hx⟩ := famcErrors_shape h
      rw [hx]
      exact prefix_head_ne 'F' x (by decide) hN (by decide)
    · obtain ⟨_, x, hx⟩ := famsErrors_shape h
      rw [hx]
      exact prefix_head_ne 'F' x (by decide) hN (by decide)
    · obtain ⟨_, x, hx⟩ := famLinkErrors_shape h
      rcases hx with hx | hx
      · rw [hx]; exact prefix_head_ne 'S' x (by decide) hN (by decide)
      · rw [hx]; exact prefix_head_ne 'C' x (by decide) hN (by decide)
    · obtain ⟨_, x, hx⟩ := famcWarnings_shape h
      rw [hx]
      exact prefix_head_ne 'F' x (by decide) hN (by decide)
    · obtain ⟨_, v, hv, hpat⟩ := date_warnings_shape h
      rw [hv]
      intro hcon
      have : v = "ABT 1895" :=
        string_append_cancel (p := "Non-standard date format: ") hcon
      rw [this] at hpat
      exact absurd hpat (by decide)
  · intro k r line hmem hl ht hv
    have h := date_warnings_mem hmem hl ht (by rw [hv]; decide) (by rw [hv]; decide)
    rw [hv] at h
    exact date_warnings_sub_validate h
  · intro e he hsev
    rcases mem_validate_cases he with h | h | h | h | h | h
    · obtain ⟨_, x, hx⟩ := validateIdsAux_shape _ _ _ h
      rw [hx]
      exact prefix_head_ne 'D' x (by decide) hN (by decide)
    · obtain ⟨_, x, hx⟩ := famcErrors_shape h
      rw [hx]
      exact prefix_head_ne 'F' x (by decide) hN (by decide)
    · obtain ⟨_, x, hx⟩ := famsErrors_shape h
      rw [hx]
      exact prefix_head_ne 'F' x (by decide) hN (by decide)
    · obtain ⟨_, x, hx⟩ := famLinkErrors_shape h
      rcases hx with hx | hx
      · rw [hx]; exact prefix_head_ne 'S' x (by decide) hN (by decide)
      · rw [hx]; exact prefix_head_ne 'C' x (by decide) hN (by decide)
    · obtain ⟨hw, _⟩ := famcWarnings_shape h
      rw [hw] at hsev
      exact absurd hsev (by decide)
    · obtain ⟨hw, _⟩ := date_warnings_shape h
      rw [hw] at hsev
      exact absurd hsev (by decide)

/-- Witness for C8: a store holding both date shapes. -/
def c8Store : GedcomManager :=
  load_lines newManager
    ["0 @I1@ INDI", "1 BIRT", "2 DATE ABT 1895", "1 DEAT", "2 DATE sometime last spring"]

/-- Witness applying C8 at the concrete store: the free-text date's warning
is in the `validate()` output. -/
theorem c8_date_grammar_witness :
    ({ severity := "warning", record_id := some "@I1@", line_number := none,
       message := "Non-standard date format: sometime last spring" } :
        GedcomValidationError) ∈ validate c8Store := by
  refine (c8_date_grammar c8Store).2.1 "@I1@"
    { id := some "@I1@", tag := ""
      lines := [{ level := 0, tag := "INDI", value := "", xref := some "@I1@" },
                { level := 1, tag := "BIRT" },
                { level := 2, tag := "DATE", value := "ABT 1895" },
                { level := 1, tag := "DEAT" },
                { level := 2, tag := "DATE", value := "sometime last spring" }] }
    { level := 2, tag := "DATE", value := "sometime last spring" }
    (by decide) (by decide) (by decide) (by decide)

/-! ## C5 amended: what `get_value` actually guarantees -/

theorem getValueAux_sound (path : List String) :
    ∀ (ls : List GedcomLine) (cl : Nat) (cm : Bool) (v : String),
    getValueAux path ls cl cm = some v →
    ∃ l ∈ ls, l.level = path.length ∧ l.tag = path.getLastD "" ∧ l.value = v := by
  intro ls
  induction ls with
  | nil => intro cl cm v h; simp [getValueAux] at h
  | cons l rest ih =>
    intro cl cm v h
    simp only [getValueAux] at h
    set b : Bool := if (decide (l.level ≤ cl) && !cm) = true then true else cm with hb
    by_cases hbt : b = true
    · rw [if_pos hbt] at h
      split at h
      · rename_i hcond
        simp only [Bool.and_eq_true, decide_eq_true_eq] at hcond
        exact ⟨l, List.mem_cons_self l rest, hcond.1, hcond.2, Option.some.inj h⟩
      · split at h
        · obtain ⟨l', hl', hp⟩ := ih _ _ _ h
          exact ⟨l', List.mem_cons_of_mem _ hl', hp⟩
        · obtain ⟨l', hl', hp⟩ := ih _ _ _ h
          exact ⟨l', List.mem_cons_of_mem _ hl', hp⟩
    · rw [if_neg hbt] at h
      obtain ⟨l', hl', hp⟩ := ih _ _ _ h
      exact ⟨l', List.mem_cons_of_mem _ hl', hp⟩

/-- The chain of opening lines `k t1 v1`, `k+1 t2 v2`, … pairing a tag path
with line values. -/
def openChain : Nat → List String → List String → List GedcomLine
  | _, [], _ => []
  | _, _ :: _, [] => []
  | k, t :: ts, v :: vs => { level := k, tag := t, value := v } :: openChain (k + 1) ts vs

theorem getLastD_irrel {l : List String} (h : l ≠ []) (d d' : String) :
    l.getLastD d = l.getLastD d' := by
  cases l with
  | nil => exact absurd rfl h
  | cons a t => rfl

theorem getLastD_append (l₁ : List String) {l₂ : List String} (h : l₂ ≠ []) (d : String) :
    (l₁ ++ l₂).getLastD d = l₂.getLastD d := by
  induction l₁ generalizing d with
  | nil => rfl
  | cons a t ihh =>
    rw [List.cons_append, List.getLastD_cons, ihh a]
    exact getLastD_irrel h a d

theorem getValueAux_chain :
    ∀ (suffix vals pre : List String) (rest : List GedcomLine),
    suffix ≠ [] → vals.length = suffix.length →
    getValueAux (pre ++ suffix) (openChain (pre.length + 1) suffix vals ++ rest)
        pre.length true
      = some (vals.getLastD "") := by
  intro suffix
  induction suffix with
  | nil => intro vals pre rest hne; exact absurd rfl hne
  | cons t ts ih =>
    intro vals pre rest hne hlen
    cases vals with
    | nil => simp at hlen
    | cons v vs =>
      simp only [List.length_cons, Nat.succ_inj'] at hlen
      cases ts with
      | nil =>
        have hvs : vs = [] := List.length_eq_zero.mp hlen
        subst hvs
        have h2 : (pre ++ [t]).getLastD "" = t := by
          rw [getLastD_append pre (by simp) ""]
          rfl
        simp only [openChain, List.cons_append, List.nil_append]
        simp only [getValueAux, Bool.not_true, Bool.and_false, Bool.false_eq_true,
          if_false, if_true]
        rw [if_pos (by simp [List.length_append, h2])]
        rfl
      | cons t2 ts2 =>
        have hvs : vs ≠ [] := by
          intro hcon
          rw [hcon] at hlen
          simp at hlen
        have hno : ¬(pre.length + 1 = (pre ++ t :: t2 :: ts2).length) := by
          simp only [List.length_append, List.length_cons]
          omega
        have hlt : pre.length + 1 < (pre ++ t :: t2 :: ts2).length := by
          simp only [List.length_append, List.length_cons]
          omega
        have htag : t = (pre ++ t :: t2 :: ts2).getD (pre.length + 1 - 1) "" := by
          have hh : pre.length + 1 - 1 = pre.length := rfl
          rw [hh, List.getD_append_right _ _ _ _ (le_refl _)]
          simp
        simp only [openChain, List.cons_append]
        simp only [getValueAux, Bool.not_true, Bool.and_false, Bool.false_eq_true,
          if_false, if_true]
        rw [if_neg (by simp only [Bool.and_eq_true, decide_eq_true_eq]; exact fun hc => hno hc.1)]
        rw [if_pos (by simp only [Bool.and_eq_true, decide_eq_true_eq]; exact ⟨hlt, htag⟩)]
        have key := ih vs (pre ++ [t]) rest (by simp) hlen
        rw [show ((pre ++ [t]) ++ t2 :: ts2 : List String) = pre ++ t :: t2 :: ts2 by simp] at key
        rw [show ((pre ++ [t]).length : Nat) = pre.length + 1 by simp] at key
        rw [key]
        rw [List.getLastD_cons, getLastD_irrel hvs v ""]

/-- C5 amended: `get_value` returns a value only from a line at level
`len(path)` with the path's final tag (so None when no such line exists), and
when the record's sublines open the path scopes consecutively from the start
(`1 t1`, `2 t2`, …, `n tn`) it returns that chain's final value; it does not
verify that the enclosing scopes were opened by `t1…t(n-1)` in general (see
the counterexample). -/
theorem c5_get_value_partial_spec (r : GedcomRecord) (path : List String) :
    (∀ v, r.get_value path = some v →
      ∃ l ∈ r.lines.tail, l.level = path.length ∧ l.tag = path.getLastD "" ∧ l.value = v)
    ∧ (∀ (vals : List String) (rest : List GedcomLine), path ≠ [] →
        vals.length = path.length →
        r.lines.tail = openChain 1 path vals ++ rest →
        r.get_value path = some (vals.getLastD "")) := by
  constructor
  · intro v h
    exact getValueAux_sound path _ 0 true v h
  · intro vals rest hne hlen htail
    unfold GedcomRecord.get_value
    rw [htail]
    have key := getValueAux_chain path vals [] rest hne hlen
    simpa using key

/-- Witness for the C5 amended theorem on concrete records. -/
theorem c5_get_value_partial_spec_witness :
    (∃ l ∈ c5RecordA.lines.tail,
      l.level = 2 ∧ l.tag = "DATE" ∧ l.value = "1900")
    ∧ GedcomRecord.get_value
        { id := some "@I1@", tag := "INDI"
          lines := [{ level := 0, tag := "INDI", xref := some "@I1@" },
                    { level := 1, tag := "BIRT" },
                    { level := 2, tag := "DATE", value := "1900" }] }
        ["BIRT", "DATE"] = some "1900" := by
  constructor
  · have h := (c5_get_value_partial_spec c5RecordA ["BIRT", "DATE"]).1 "1900" (by decide)
    simpa using h
  · have h := (c5_get_value_partial_spec
      { id := some "@I1@", tag := "INDI"
        lines := [{ level := 0, tag := "INDI", xref := some "@I1@" },
                  { level := 1, tag := "BIRT" },
                  { level := 2, tag := "DATE", value := "1900" }] }
      ["BIRT", "DATE"]).2 ["", "1900"] [] (by decide) (by decide) (by decide)
    simpa using h

/-! ## C10: identifier uniqueness across reachable stores -/

/-- Invariant of the all-records mapping: keys are distinct, and every
record with a (truthy) identifier sits under exactly that identifier. -/
def RecListInv (l : List (String × GedcomRecord)) : Prop :=
  (l.map Prod.fst).Nodup
  ∧ ∀ kv ∈ l, ∀ i, kv.2.id = some i → i ≠ "" ∧ kv.1 = i

/-- Stores reachable by any sequence of `load`, `add_person`, `add_family`,
`add_source` from a fresh manager. -/
inductive Reachable : GedcomManager → Prop
  | fresh : Reachable newManager
  | load (m : GedcomManager) (ls : List String) :
      Reachable m → Reachable (load_lines m ls)
  | person (m : GedcomManager) (p : Person) :
      Reachable m → Reachable (add_person m p).2
  | family (m : GedcomManager) (hid wid : Option String) (cs : Option (List String))
      (md : Option GenealogyDate) (mp : Option Place) :
      Reachable m → Reachable (add_family m hid wid cs md mp).2
  | source (m : GedcomManager) (s : Source) :
      Reachable m → Reachable (add_source m s).2

theorem map_fst_dinsert (k : String) (v : GedcomRecord) (l : List (String × GedcomRecord)) :
    (dinsert k v l).map Prod.fst
      = if k ∈ l.map Prod.fst then l.map Prod.fst else l.map Prod.fst ++ [k] := by
  induction l with
  | nil => simp [dinsert]
  | cons hd tl ih =>
    obtain ⟨ka, va⟩ := hd
    by_cases hk : ka = k
    · subst hk
      simp [dinsert]
    · have hne : ¬ k = ka := fun hc => hk hc.symm
      simp only [dinsert, hk, if_false, reduceIte, List.map_cons, List.mem_cons, hne,
        false_or, ih]
      by_cases hmem : k ∈ tl.map Prod.fst <;> simp [hmem]

theorem mem_dinsert {k : String} {v : GedcomRecord} :
    ∀ {l : List (String × GedcomRecord)} {kv : String × GedcomRecord},
    kv ∈ dinsert k v l → kv = (k, v) ∨ kv ∈ l := by
  intro l
  induction l with
  | nil => intro kv h; simpa [dinsert] using h
  | cons hd tl ih =>
    intro kv h
    obtain ⟨ka, va⟩ := hd
    by_cases hk : ka = k
    · have heq : dinsert k v ((ka, va) :: tl) = (k, v) :: tl := by simp [dinsert, hk]
      rw [heq] at h
      rcases List.mem_cons.mp h with h | h
      · exact Or.inl h
      · exact Or.inr (List.mem_cons_of_mem _ h)
    · have heq : dinsert k v ((ka, va) :: tl) = (ka, va) :: dinsert k v tl := by
        simp [dinsert, hk]
      rw [heq] at h
      rcases List.mem_cons.mp h with h | h
      · exact Or.inr (by simp [h])
      · rcases ih h with h2 | h2
        · exact Or.inl h2
        · exact Or.inr (List.mem_cons_of_mem _ h2)

theorem RecListInv_dinsert {l : List (String × GedcomRecord)} {k : String} {v : GedcomRecord}
    (hl : RecListInv l) (hv : ∀ i, v.id = some i → i ≠ "" ∧ k = i) :
    RecListInv (dinsert k v l) := by
  obtain ⟨hnd, hlaw⟩ := hl
  constructor
  · rw [map_fst_dinsert]
    by_cases hmem : k ∈ l.map Prod.fst
    · simpa [hmem] using hnd
    · simp only [hmem, if_false, reduceIte]
      simpa [List.nodup_append, hmem] using hnd
  · intro kv hkv i hi
    rcases mem_dinsert hkv with h | h
    · subst h
      exact hv i hi
    · exact hlaw kv h i hi

theorem map_fst_replaceEntries (old new : GedcomRecord) (l : List (String × GedcomRecord)) :
    (replaceEntries old new l).map Prod.fst = l.map Prod.fst := by
  induction l with
  | nil => rfl
  | cons hd tl ih =>
    show hd.1 :: (replaceEntries old new tl).map Prod.fst = hd.1 :: tl.map Prod.fst
    rw [ih]

theorem RecListInv_replaceEntries {l : List (String × GedcomRecord)}
    {old new : GedcomRecord} (hid : new.id = old.id) (hl : RecListInv l) :
    RecListInv (replaceEntries old new l) := by
  obtain ⟨hnd, hlaw⟩ := hl
  refine ⟨by rwa [map_fst_replaceEntries], ?_⟩
  intro kv hkv i hi
  unfold replaceEntries at hkv
  rw [List.mem_map] at hkv
  obtain ⟨kv0, hkv0, heq⟩ := hkv
  subst heq
  by_cases hold : kv0.2 = old
  · simp only [hold, if_pos rfl] at hi ⊢
    refine hlaw kv0 hkv0 i ?_
    rw [hold, ← hid]
    exact hi
  · simp only [hold, if_false, reduceIte] at hi ⊢
    exact hlaw kv0 hkv0 i hi

/-- Nonempty-headed strings are not empty. -/
theorem str_ne_empty_of_head {s : String} {c : Char} (h : s.data.head? = some c) :
    s ≠ "" := by
  intro hcon
  subst hcon
  cases h

theorem gen_id_ne_empty (pre : String) (c : Char) (hp : pre.data.head? = some c)
    (n : Nat) : pre ++ toString n ++ "@" ≠ "" :=
  str_ne_empty_of_head (string_append_head "@" (string_append_head (toString n) hp))

/-- Any xref captured by `parseXref` is nonempty. -/
theorem parseXref_fst_ne_empty {cs : List Char} {p : String × List Char}
    (h : parseXref cs = some p) : p.1 ≠ "" := by
  unfold parseXref at h
  repeat' (first | (split at h) | (simp only [] at h))
  any_goals cases h
  apply str_ne_empty_of_head (c := '@')
  rfl

/-- The xref of any parsed line is nonempty. -/
theorem parse_xref_ne_empty {s : String} {l : GedcomLine}
    (h : GedcomLine.parse s = some l) : ∀ x, l.xref = some x → x ≠ "" := by
  intro x hx
  simp only [GedcomLine.parse] at h
  split at h
  · cases h
  · split at h
    · cases h
    · split at h
      · cases h
      · split at h
        · cases h
        · obtain rfl : l = _ := (Option.some.inj h).symm
          revert hx
          show (Option.map (fun p => p.1) (parseXref _) = some x) → _
          intro hx
          cases hxt : parseXref ((((pyStripL s.data).dropWhile Char.isDigit)).dropWhile pyIsSpace) with
          | none => rw [hxt] at hx; cases hx
          | some p =>
            rw [hxt] at hx
            exact Option.some.inj hx ▸ parseXref_fst_ne_empty hxt

/-- On a records list obeying the key law, with a seen-set disjoint from the
keys, the duplicate-id loop reports nothing. -/
theorem validateIdsAux_nil :
    ∀ (l : List (String × GedcomRecord)) (seen : List String),
    RecListInv l → (∀ s ∈ seen, s ∉ l.map Prod.fst) →
    validateIdsAux l seen = [] := by
  intro l
  induction l with
  | nil => intro seen _ _; rfl
  | cons hd tl ih =>
    intro seen hinv hdisj
    obtain ⟨k, r⟩ := hd
    obtain ⟨hnd, hlaw⟩ := hinv
    have hndtl : (tl.map Prod.fst).Nodup := (List.nodup_cons.mp hnd).2
    have hknotin : k ∉ tl.map Prod.fst := (List.nodup_cons.mp hnd).1
    have hinvtl : RecListInv tl :=
      ⟨hndtl, fun kv hkv i hi => hlaw kv (List.mem_cons_of_mem _ hkv) i hi⟩
    cases hid : r.id with
    | none =>
      simp only [validateIdsAux, hid]
      exact ih seen hinvtl (fun s hs hc => hdisj s hs (List.mem_cons_of_mem _ hc))
    | some i =>
      by_cases hie : i = ""
      · simp only [validateIdsAux, hid, hie, if_true, reduceIte]
        exact ih seen hinvtl (fun s hs hc => hdisj s hs (List.mem_cons_of_mem _ hc))
      · have hki : k = i := (hlaw (k, r) (List.mem_cons_self _ _) i hid).2
        have hnotseen : i ∉ seen := fun hc =>
          hdisj i hc (by rw [← hki]; exact List.mem_cons_self _ _)
        simp only [validateIdsAux, hid, hie, if_false, reduceIte, hnotseen,
          List.nil_append]
        refine ih (i :: seen) hinvtl ?_
        intro s hs
        rcases List.mem_cons.mp hs with rfl | hs2
        · rw [← hki]; exact hknotin
        · exact fun hc => hdisj s hs2 (List.mem_cons_of_mem _ hc)

/-- A record with a truthy identifier is keyed by that identifier. -/
theorem recordKey_eq_id {c : GedcomRecord} {i : String} (hid : c.id = some i)
    (hne : i ≠ "") : recordKey c = i := by
  unfold recordKey
  rw [hid]
  simp [hne]

/-- Invariant carried through the `_parse` loop: the accumulated records
obey the key law and the record being built never has an empty identifier. -/
def PSInv (st : ParseState) : Prop :=
  RecListInv st.records ∧ ∀ c, st.current = some c → ∀ i, c.id = some i → i ≠ ""

theorem PSInv_flushCurrent {st : ParseState} (h : PSInv st) : PSInv (flushCurrent st) := by
  obtain ⟨hrec, hcur⟩ := h
  cases hc : st.current with
  | none =>
    simp only [flushCurrent, hc]
    exact ⟨hrec, hcur⟩
  | some c =>
    simp only [flushCurrent, hc]
    refine ⟨RecListInv_dinsert hrec ?_, ?_⟩
    · intro i hi
      have hne := hcur c hc i hi
      exact ⟨hne, recordKey_eq_id hi hne⟩
    · intro c2 hc2
      cases hc2

theorem PSInv_parseStep {st : ParseState} (h : PSInv st) (line : String) :
    PSInv (parseStep st line) := by
  cases hp : GedcomLine.parse line with
  | none => simpa only [parseStep, hp] using h
  | some p =>
    by_cases hl : p.level = 0
    · simp only [parseStep, hp, hl, if_true, reduceIte]
      have hf := PSInv_flushCurrent h
      refine ⟨hf.1, ?_⟩
      intro c hc i hi
      obtain rfl : _ = c := Option.some.inj hc
      exact parse_xref_ne_empty hp i hi
    · simp only [parseStep, hp, hl, if_false, reduceIte]
      cases hcur : st.current with
      | none => simpa only [hcur] using h
      | some c =>
        simp only [hcur]
        refine ⟨h.1, ?_⟩
        intro c2 hc2 i hi
        obtain rfl : _ = c2 := Option.some.inj hc2
        exact h.2 c hcur i hi

theorem PSInv_foldl (ls : List String) :
    ∀ st, PSInv st → PSInv (ls.foldl parseStep st) := by
  induction ls with
  | nil => intro st h; exact h
  | cons hd tl ih => intro st h; exact ih _ (PSInv_parseStep h hd)

/-- `_parse` preserves the key law on the all-records mapping. -/
theorem gedcomParse_inv {m : GedcomManager} (h : RecListInv m.records) (ls : List String) :
    RecListInv (gedcomParse m ls).records := by
  have h0 : PSInv (ParseState.mk m.records m.header m.trailer none false false) :=
    ⟨h, fun c hc => by cases hc⟩
  exact (PSInv_flushCurrent (PSInv_foldl ls _ h0)).1

/-- The index-building fold never writes to the all-records mapping. -/
theorem build_step_records :
    ∀ (l : List (String × GedcomRecord)) (m : GedcomManager),
    (l.foldl (fun m kv =>
      if kv.2.tag = "INDI" then { m with individuals := dinsert kv.1 kv.2 m.individuals }
      else if kv.2.tag = "FAM" then { m with families := dinsert kv.1 kv.2 m.families }
      else if kv.2.tag = "SOUR" then { m with sources := dinsert kv.1 kv.2 m.sources }
      else if kv.2.tag = "REPO" then
        { m with repositories := dinsert kv.1 kv.2 m.repositories }
      else m) m).records = m.records := by
  intro l
  induction l with
  | nil => intro m; rfl
  | cons hd tl ih =>
    intro m
    rw [List.foldl_cons, ih]
    repeat' split
    all_goals rfl

theorem build_indexes_records (m : GedcomManager) :
    (build_indexes m).records = m.records :=
  build_step_records m.records m

theorem update_id_counters_records (m : GedcomManager) :
    (update_id_counters m).records = m.records := rfl

/-- `load` preserves the key law. -/
theorem load_lines_inv {m : GedcomManager} (h : RecListInv m.records) (ls : List String) :
    RecListInv (load_lines m ls).records := by
  unfold load_lines
  rw [update_id_counters_records, build_indexes_records]
  exact gedcomParse_inv h ls

/-- Storing a freshly built record under its own (nonempty) identifier
preserves the key law. -/
theorem RecListInv_dinsert_self {l : List (String × GedcomRecord)}
    (h : RecListInv l) (gid tg : String) (lines : List GedcomLine)
    (hne : gid ≠ "") :
    RecListInv (dinsert gid { id := some gid, tag := tg, lines := lines } l) := by
  refine RecListInv_dinsert h ?_
  intro i hi
  obtain rfl : gid = i := Option.some.inj hi
  exact ⟨hne, rfl⟩

/-- `add_person` preserves the key law. -/
theorem add_person_inv {m : GedcomManager} (h : RecListInv m.records) (p : Person) :
    RecListInv (add_person m p).2.records := by
  cases hg : p.gedcom_id with
  | none =>
    simp only [add_person, hg, get_next_individual_id]
    exact RecListInv_dinsert_self h _ _ _
      (gen_id_ne_empty "@I" '@' (by decide) m.next_indi_id)
  | some s =>
    by_cases hs : s = ""
    · simp only [add_person, hg, hs, if_true, reduceIte, get_next_individual_id]
      exact RecListInv_dinsert_self h _ _ _
        (gen_id_ne_empty "@I" '@' (by decide) m.next_indi_id)
    · simp only [add_person, hg, hs, if_false, reduceIte]
      exact RecListInv_dinsert_self h _ _ _ hs

/-- `_add_fams_link` preserves the key law. -/
theorem add_fams_link_inv {m : GedcomManager} (h : RecListInv m.records)
    (a b : String) : RecListInv (add_fams_link m a b).records := by
  cases hc : dlookup a m.individuals with
  | none => simpa only [add_fams_link, hc] using h
  | some r =>
    simp only [add_fams_link, hc]
    exact RecListInv_replaceEntries rfl h

/-- `_add_famc_link` preserves the key law. -/
theorem add_famc_link_inv {m : GedcomManager} (h : RecListInv m.records)
    (a b : String) : RecListInv (add_famc_link m a b).records := by
  cases hc : dlookup a m.individuals with
  | none => simpa only [add_famc_link, hc] using h
  | some r =>
    simp only [add_famc_link, hc]
    exact RecListInv_replaceEntries rfl h

theorem famc_fold_inv (gid : String) :
    ∀ (ks : List String) (m : GedcomManager), RecListInv m.records →
    RecListInv ((ks.foldl (fun mm child_id => add_famc_link mm child_id gid) m)).records := by
  intro ks
  induction ks with
  | nil => intro m h; exact h
  | cons hd tl ih =>
    intro m h
    rw [List.foldl_cons]
    exact ih _ (add_famc_link_inv h hd gid)

/-- `add_family` preserves the key law. -/
theorem add_family_inv {m : GedcomManager} (h : RecListInv m.records)
    (hid wid : Option String) (cs : Option (List String)) (md : Option GenealogyDate)
    (mp : Option Place) :
    RecListInv (add_family m hid wid cs md mp).2.records := by
  simp only [add_family, get_next_family_id]
  refine RecListInv_dinsert_self ?_ _ _ _
    (gen_id_ne_empty "@F" '@' (by decide) m.next_fam_id)
  apply famc_fold_inv
  split
  · apply add_fams_link_inv
    split
    · apply add_fams_link_inv
      exact h
    · exact h
  · split
    · apply add_fams_link_inv
      exact h
    · exact h

/-- `add_source` preserves the key law. -/
theorem add_source_inv {m : GedcomManager} (h : RecListInv m.records) (s : Source) :
    RecListInv (add_source m s).2.records := by
  simp only [add_source, get_next_source_id]
  exact RecListInv_dinsert_self h _ _ _
    (gen_id_ne_empty "@S" '@' (by decide) m.next_sour_id)

/-- The key law holds in every reachable store. -/
theorem reachable_inv {m : GedcomManager} (h : Reachable m) : RecListInv m.records := by
  induction h with
  | fresh => exact ⟨List.nodup_nil, fun kv hkv => absurd hkv (List.not_mem_nil _)⟩
  | load m ls _ ih => exact load_lines_inv ih ls
  | person m p _ ih => exact add_person_inv ih p
  | family m hid wid cs md mp _ ih => exact add_family_inv ih hid wid cs md mp
  | source m s _ ih => exact add_source_inv ih s

/-- A message starting with a non-`D` character is never a duplicate-id
message. -/
theorem msg_ne_dup (c : Char) (p x i : String)
    (hp : p.data.head? = some c) (hc : c ≠ 'D') :
    p ++ x ≠ "Duplicate ID: " ++ i :=
  string_head_ne (string_append_head x hp) (string_append_head i (by decide)) hc

/-- C10: in every store reachable by a sequence of `load`, `add_person`,
`add_family`, `add_source` from a fresh manager, every record with an
identifier sits in the all-records mapping under exactly that identifier and
the stored keys are pairwise distinct; consequently `_validate_ids` reports
nothing and `validate` never emits a `Duplicate ID` error. -/
theorem c10_identifier_uniqueness {m : GedcomManager} (h : Reachable m) :
    ((m.records.map Prod.fst).Nodup
      ∧ ∀ kv ∈ m.records, ∀ i, kv.2.id = some i → kv.1 = i)
    ∧ validate_ids m = []
    ∧ ∀ e ∈ validate m, ∀ i, e.message ≠ "Duplicate ID: " ++ i := by
  have hinv := reachable_inv h
  obtain ⟨hnd, hlaw⟩ := hinv
  have hids : validate_ids m = [] :=
    validateIdsAux_nil m.records [] ⟨hnd, hlaw⟩
      (fun s hs => absurd hs (List.not_mem_nil _))
  refine ⟨⟨hnd, fun kv hkv i hi => (hlaw kv hkv i hi).2⟩, hids, ?_⟩
  intro e he i
  rcases mem_validate_cases he with h1 | h1 | h1 | h1 | h1 | h1
  · rw [hids] at h1
    exact absurd h1 (List.not_mem_nil _)
  · obtain ⟨-, x, hx⟩ := famcErrors_shape h1
    rw [hx]
    exact msg_ne_dup 'F' _ x i (by decide) (by decide)
  · obtain ⟨-, x, hx⟩ := famsErrors_shape h1
    rw [hx]
    exact msg_ne_dup 'F' _ x i (by decide) (by decide)
  · obtain ⟨-, x, hx⟩ := famLinkErrors_shape h1
    rcases hx with hx | hx
    · rw [hx]
      exact msg_ne_dup 'S' _ x i (by decide) (by decide)
    · rw [hx]
      exact msg_ne_dup 'C' _ x i (by decide) (by decide)
  · obtain ⟨-, x, hx⟩ := famcWarnings_shape h1
    rw [hx]
    exact msg_ne_dup 'F' _ x i (by decide) (by decide)
  · obtain ⟨-, x, hx, -⟩ := date_warnings_shape h1
    rw [hx]
    exact msg_ne_dup 'N' _ x i (by decide) (by decide)

/-- A concrete reachable store for the C10 witness. -/
def c10Lines : List String :=
  ["0 HEAD", "0 @I1@ INDI", "1 NAME A /B/", "0 @F1@ FAM", "1 HUSB @I1@", "0 TRLR"]

/-- A loaded-then-extended store is reachable. -/
def c10Store : GedcomManager :=
  (add_person (load_lines newManager c10Lines) { }).2

/-- Witness for C10 at a concrete reachable store. -/
theorem c10_identifier_uniqueness_witness :
    ((c10Store.records.map Prod.fst).Nodup
      ∧ ∀ kv ∈ c10Store.records, ∀ i, kv.2.id = some i → kv.1 = i)
    ∧ validate_ids c10Store = []
    ∧ ∀ e ∈ validate c10Store, ∀ i, e.message ≠ "Duplicate ID: " ++ i :=
  c10_identifier_uniqueness
    (Reachable.person (load_lines newManager c10Lines) { }
      (Reachable.load newManager c10Lines Reachable.fresh))

/-! ## C9: surname variant generation -/

theorem char_toNat_ofNat {n : Nat} (h : n < 55296) : (Char.ofNat n).toNat = n := by
  unfold Char.ofNat
  rw [dif_pos (Or.inl h)]
  rfl

theorem char_toLower_toUpper (c : Char) : c.toUpper.toLower = c.toLower := by
  by_cases h : c.toNat >= 97 /\ c.toNat <= 122
  . have hup : c.toUpper = Char.ofNat (c.toNat - 32) := by
      unfold Char.toUpper
      rw [if_pos h]
    have htn : (Char.ofNat (c.toNat - 32)).toNat = c.toNat - 32 :=
      char_toNat_ofNat (by omega)
    have hlow1 : c.toUpper.toLower = Char.ofNat (c.toNat - 32 + 32) := by
      rw [hup]
      unfold Char.toLower
      rw [htn, if_pos (by omega)]
    have hlow2 : c.toLower = c := by
      unfold Char.toLower
      rw [if_neg (by omega)]
    rw [hlow1, hlow2]
    have h32 : c.toNat - 32 + 32 = c.toNat := by omega
    rw [h32, Char.ofNat_toNat]
  . have hup : c.toUpper = c := by
      unfold Char.toUpper
      rw [if_neg h]
    rw [hup]

theorem char_toLower_toLower (c : Char) : c.toLower.toLower = c.toLower := by
  by_cases h : c.toNat >= 65 /\ c.toNat <= 90
  . have hlo : c.toLower = Char.ofNat (c.toNat + 32) := by
      unfold Char.toLower
      rw [if_pos h]
    have htn : (Char.ofNat (c.toNat + 32)).toNat = c.toNat + 32 :=
      char_toNat_ofNat (by omega)
    rw [hlo]
    unfold Char.toLower
    rw [htn, if_neg (by omega)]
  . have hlo : c.toLower = c := by
      unfold Char.toLower
      rw [if_neg h]
    rw [hlo, hlo]

theorem pyLowerL_idem (cs : List Char) : pyLowerL (pyLowerL cs) = pyLowerL cs := by
  unfold pyLowerL
  rw [List.map_map]
  exact List.map_congr_left (fun c _ => char_toLower_toLower c)

theorem pyTitleL_length (cs : List Char) : forall b, (pyTitleL cs b).length = cs.length := by
  induction cs with
  | nil => intro b; rfl
  | cons c rest ih =>
    intro b
    unfold pyTitleL
    by_cases h : c.isAlpha
    . simp [h, ih]
    . simp [h, ih]

theorem pyLowerL_pyTitleL (cs : List Char) :
    ∀ b, pyLowerL (pyTitleL cs b) = pyLowerL cs := by
  induction cs with
  | nil => intro b; rfl
  | cons c rest ih =>
    intro b
    have h2t := ih true
    have h2f := ih false
    unfold pyLowerL at h2t h2f
    unfold pyTitleL
    by_cases h : c.isAlpha
    . cases b
      . simp [h, pyLowerL, char_toLower_toUpper, h2t]
      . simp [h, pyLowerL, char_toLower_toLower, h2t]
    . simp [h, pyLowerL, h2f]

theorem startsWithL_length {pat cs : List Char} (h : startsWithL pat cs = true) :
    pat.length <= cs.length := by
  induction pat generalizing cs with
  | nil => simp
  | cons p ps ih =>
    cases cs with
    | nil => cases h
    | cons c rest =>
      simp only [startsWithL, Bool.and_eq_true] at h
      simpa [List.length_cons] using Nat.succ_le_succ (ih h.2)

theorem containsSub_nil {pat : List Char} (hne : pat ≠ []) :
    containsSub [] pat = false := by
  cases pat with
  | nil => exact absurd rfl hne
  | cons p ps => rfl

theorem containsSub_cons {pat : List Char} {c : Char} {rest : List Char}
    (h : containsSub (c :: rest) pat = true) :
    startsWithL pat (c :: rest) = true ∨ containsSub rest pat = true := by
  unfold containsSub at h
  simp only [Bool.or_eq_true] at h
  exact h

theorem replaceAll_len_le {pat repl : List Char} (hlen : repl.length <= pat.length) :
    forall n cs, cs.length <= n -> (pyReplaceAll pat repl cs).length <= cs.length := by
  intro n
  induction n with
  | zero =>
    intro cs h
    obtain rfl : cs = [] := List.length_eq_zero.mp (Nat.le_zero.mp h)
    simp [pyReplaceAll]
  | succ n ih =>
    intro cs h
    cases cs with
    | nil => simp [pyReplaceAll]
    | cons c rest =>
      unfold pyReplaceAll
      by_cases hd : pat ≠ [] ∧ startsWithL pat (c :: rest) = true
      . rw [dif_pos hd]
        rw [List.length_append]
        have hple : pat.length <= (c :: rest).length := startsWithL_length hd.2
        have hp : 0 < pat.length := List.length_pos.mpr hd.1
        have h1 : (pyReplaceAll pat repl ((c :: rest).drop pat.length)).length
            <= ((c :: rest).drop pat.length).length := by
          apply ih
          rw [List.length_drop]
          simp only [List.length_cons] at h ⊢
          omega
        rw [List.length_drop] at h1
        simp only [List.length_cons] at *
        omega
      . rw [dif_neg hd]
        have h1 : (pyReplaceAll pat repl rest).length <= rest.length := by
          apply ih
          simp only [List.length_cons] at h
          omega
        simp only [List.length_cons]
        omega

theorem replaceAll_len_ge {pat repl : List Char} (hlen : pat.length <= repl.length) :
    forall n cs, cs.length <= n -> cs.length <= (pyReplaceAll pat repl cs).length := by
  intro n
  induction n with
  | zero =>
    intro cs h
    obtain rfl : cs = [] := List.length_eq_zero.mp (Nat.le_zero.mp h)
    simp [pyReplaceAll]
  | succ n ih =>
    intro cs h
    cases cs with
    | nil => simp [pyReplaceAll]
    | cons c rest =>
      unfold pyReplaceAll
      by_cases hd : pat ≠ [] ∧ startsWithL pat (c :: rest) = true
      . rw [dif_pos hd]
        rw [List.length_append]
        have hple : pat.length <= (c :: rest).length := startsWithL_length hd.2
        have h1 : ((c :: rest).drop pat.length).length
            <= (pyReplaceAll pat repl ((c :: rest).drop pat.length)).length := by
          apply ih
          rw [List.length_drop]
          have hp : 0 < pat.length := List.length_pos.mpr hd.1
          simp only [List.length_cons] at h ⊢
          omega
        rw [List.length_drop] at h1
        simp only [List.length_cons] at *
        omega
      . rw [dif_neg hd]
        have h1 : rest.length <= (pyReplaceAll pat repl rest).length := by
          apply ih
          simp only [List.length_cons] at h
          omega
        simp only [List.length_cons]
        omega

theorem replaceAll_len_lt {pat repl : List Char} (hlen : repl.length < pat.length) :
    forall n cs, cs.length <= n -> containsSub cs pat = true ->
    (pyReplaceAll pat repl cs).length < cs.length := by
  have hne : pat ≠ [] := by
    intro hcon
    rw [hcon] at hlen
    simp at hlen
  intro n
  induction n with
  | zero =>
    intro cs h hc
    obtain rfl : cs = [] := List.length_eq_zero.mp (Nat.le_zero.mp h)
    rw [containsSub_nil hne] at hc
    cases hc
  | succ n ih =>
    intro cs h hc
    cases cs with
    | nil =>
      rw [containsSub_nil hne] at hc
      cases hc
    | cons c rest =>
      unfold pyReplaceAll
      by_cases hs : startsWithL pat (c :: rest) = true
      . rw [dif_pos ⟨hne, hs⟩]
        rw [List.length_append]
        have hple : pat.length <= (c :: rest).length := startsWithL_length hs
        have h1 : (pyReplaceAll pat repl ((c :: rest).drop pat.length)).length
            <= ((c :: rest).drop pat.length).length := by
          apply replaceAll_len_le (Nat.le_of_lt hlen) ((c :: rest).drop pat.length).length
          exact Nat.le_refl _
        rw [List.length_drop] at h1
        simp only [List.length_cons] at *
        omega
      . have hd : ¬ (pat ≠ [] ∧ startsWithL pat (c :: rest) = true) := fun hcon => hs hcon.2
        rw [dif_neg hd]
        rcases containsSub_cons hc with hcon | hcon
        . exact absurd hcon hs
        . have h1 : (pyReplaceAll pat repl rest).length < rest.length := by
            apply ih
            . simp only [List.length_cons] at h; omega
            . exact hcon
          simp only [List.length_cons]
          omega

theorem replaceAll_len_gt {pat repl : List Char} (hne : pat ≠ [])
    (hlen : pat.length < repl.length) :
    forall n cs, cs.length <= n -> containsSub cs pat = true ->
    cs.length < (pyReplaceAll pat repl cs).length := by
  intro n
  induction n with
  | zero =>
    intro cs h hc
    obtain rfl : cs = [] := List.length_eq_zero.mp (Nat.le_zero.mp h)
    rw [containsSub_nil hne] at hc
    cases hc
  | succ n ih =>
    intro cs h hc
    cases cs with
    | nil =>
      rw [containsSub_nil hne] at hc
      cases hc
    | cons c rest =>
      unfold pyReplaceAll
      by_cases hs : startsWithL pat (c :: rest) = true
      . rw [dif_pos ⟨hne, hs⟩]
        rw [List.length_append]
        have hple : pat.length <= (c :: rest).length := startsWithL_length hs
        have h1 : ((c :: rest).drop pat.length).length
            <= (pyReplaceAll pat repl ((c :: rest).drop pat.length)).length := by
          apply replaceAll_len_ge (Nat.le_of_lt hlen) ((c :: rest).drop pat.length).length
          exact Nat.le_refl _
        rw [List.length_drop] at h1
        simp only [List.length_cons] at *
        omega
      . have hd : ¬ (pat ≠ [] ∧ startsWithL pat (c :: rest) = true) := fun hcon => hs hcon.2
        rw [dif_neg hd]
        rcases containsSub_cons hc with hcon | hcon
        . exact absurd hcon hs
        . have h1 : rest.length < (pyReplaceAll pat repl rest).length := by
            apply ih
            . simp only [List.length_cons] at h; omega
            . exact hcon
          simp only [List.length_cons]
          omega

theorem replace1_len_gt {pat repl : List Char} (hne : pat ≠ [])
    (hlen : pat.length < repl.length) :
    forall cs, containsSub cs pat = true ->
    cs.length < (pyReplace1 pat repl cs).length := by
  intro cs
  induction cs with
  | nil =>
    intro hc
    rw [containsSub_nil hne] at hc
    cases hc
  | cons c rest ih =>
    intro hc
    unfold pyReplace1
    by_cases hs : startsWithL pat (c :: rest) = true
    . rw [if_pos ⟨hne, hs⟩]
      rw [List.length_append, List.length_drop]
      have hple : pat.length <= (c :: rest).length := startsWithL_length hs
      simp only [List.length_cons] at *
      omega
    . have hd : ¬ (pat ≠ [] ∧ startsWithL pat (c :: rest) = true) := fun hcon => hs hcon.2
      rw [if_neg hd]
      rcases containsSub_cons hc with hcon | hcon
      . exact absurd hcon hs
      . have h1 := ih hcon
        simp only [List.length_cons]
        omega

theorem lower_cons {c : Char} {rest : List Char} (h : pyLowerL (c :: rest) = c :: rest) :
    c.toLower = c ∧ pyLowerL rest = rest := by
  unfold pyLowerL at h ⊢
  rw [List.map_cons] at h
  exact ⟨(List.cons.injEq _ _ _ _ ▸ h).1, (List.cons.injEq _ _ _ _ ▸ h).2⟩

theorem replaceAll_lower {pat repl : List Char} (hr : pyLowerL repl = repl) :
    forall n cs, cs.length <= n -> pyLowerL cs = cs ->
    pyLowerL (pyReplaceAll pat repl cs) = pyReplaceAll pat repl cs := by
  intro n
  induction n with
  | zero =>
    intro cs h hl
    obtain rfl : cs = [] := List.length_eq_zero.mp (Nat.le_zero.mp h)
    simp [pyReplaceAll, pyLowerL]
  | succ n ih =>
    intro cs h hl
    cases cs with
    | nil => simp [pyReplaceAll, pyLowerL]
    | cons c rest =>
      unfold pyReplaceAll
      by_cases hd : pat ≠ [] ∧ startsWithL pat (c :: rest) = true
      . rw [dif_pos hd]
        have hdl : pyLowerL ((c :: rest).drop pat.length) = (c :: rest).drop pat.length := by
          unfold pyLowerL
          rw [List.map_drop]
          unfold pyLowerL at hl
          rw [hl]
        have h1 : pyLowerL (pyReplaceAll pat repl ((c :: rest).drop pat.length))
            = pyReplaceAll pat repl ((c :: rest).drop pat.length) := by
          apply ih
          . rw [List.length_drop]
            have hp : 0 < pat.length := List.length_pos.mpr hd.1
            simp only [List.length_cons] at h ⊢
            omega
          . exact hdl
        unfold pyLowerL at hr h1 ⊢
        rw [List.map_append, hr, h1]
      . rw [dif_neg hd]
        obtain ⟨hc, hrest⟩ := lower_cons hl
        have h1 : pyLowerL (pyReplaceAll pat repl rest) = pyReplaceAll pat repl rest := by
          apply ih
          . simp only [List.length_cons] at h; omega
          . exact hrest
        unfold pyLowerL at h1 ⊢
        rw [List.map_cons, hc, h1]

theorem replace1_lower {pat repl : List Char} (hr : pyLowerL repl = repl) :
    forall cs, pyLowerL cs = cs ->
    pyLowerL (pyReplace1 pat repl cs) = pyReplace1 pat repl cs := by
  intro cs
  induction cs with
  | nil => intro hl; simp [pyReplace1, pyLowerL]
  | cons c rest ih =>
    intro hl
    unfold pyReplace1
    by_cases hd : pat ≠ [] ∧ startsWithL pat (c :: rest) = true
    . rw [if_pos hd]
      have hdl : pyLowerL ((c :: rest).drop pat.length) = (c :: rest).drop pat.length := by
        unfold pyLowerL
        rw [List.map_drop]
        unfold pyLowerL at hl
        rw [hl]
      unfold pyLowerL at hr hdl ⊢
      rw [List.map_append, hr, hdl]
    . rw [if_neg hd]
      obtain ⟨hc, hrest⟩ := lower_cons hl
      have h1 := ih hrest
      unfold pyLowerL at h1 ⊢
      rw [List.map_cons, hc, h1]

theorem setAdd_nodup {l : List String} (h : l.Nodup) (v : String) : (setAdd v l).Nodup := by
  unfold setAdd
  by_cases hv : v ∈ l
  . rw [if_pos hv]; exact h
  . rw [if_neg hv]
    rw [List.nodup_append]
    refine ⟨h, List.nodup_singleton v, ?_⟩
    intro x hx hx2
    rw [List.mem_singleton] at hx2
    subst hx2
    exact hv hx


theorem mem_setAdd_cases {l : List String} {v x : String} (h : x ∈ setAdd v l) :
    x = v ∨ x ∈ l := by
  unfold setAdd at h
  by_cases hv : v ∈ l
  . rw [if_pos hv] at h; exact Or.inr h
  . rw [if_neg hv] at h
    rcases List.mem_append.mp h with h | h
    . exact Or.inr h
    . exact Or.inl (List.mem_singleton.mp h)

theorem mem_setAdd_of_mem {l : List String} {x : String} (v : String) (h : x ∈ l) :
    x ∈ setAdd v l := by
  unfold setAdd
  by_cases hv : v ∈ l
  . rw [if_pos hv]; exact h
  . rw [if_neg hv]; exact List.mem_append_left _ h

theorem strInsert_perm (s : String) (l : List String) : (strInsert s l).Perm (s :: l) := by
  induction l with
  | nil => exact List.Perm.refl _
  | cons t rest ih =>
    unfold strInsert
    by_cases h : t < s
    . rw [if_pos h]
      exact List.Perm.trans (List.Perm.cons t ih) (List.Perm.swap s t rest)
    . rw [if_neg h]

theorem strSort_perm (l : List String) : (strSort l).Perm l := by
  induction l with
  | nil => exact List.Perm.refl _
  | cons s rest ih =>
    unfold strSort
    exact List.Perm.trans (strInsert_perm s (strSort rest)) (List.Perm.cons s ih)

theorem foldl_inv {α β : Type} (P : β → Prop) (f : β → α → β) :
    forall (l : List α), (forall b a, a ∈ l -> P b -> P (f b a)) ->
    forall b, P b -> P (l.foldl f b) := by
  intro l
  induction l with
  | nil => intro _ b h; exact h
  | cons hd tl ih =>
    intro hstep b h
    rw [List.foldl_cons]
    exact ih (fun b a ha hb => hstep b a (List.mem_cons_of_mem _ ha) hb) _
      (hstep b hd (List.mem_cons_self _ _) h)

/-- Invariant of the variant accumulator: duplicate-free, contains the
original surname, and every other member is a lowercase string whose length
differs from the surname's. -/
def VarInv (s : String) (l : List String) : Prop :=
  l.Nodup ∧ s ∈ l ∧ ∀ v ∈ l, v = s ∨ (pyLower v = v ∧ v.data.length ≠ s.data.length)

theorem VarInv_setAdd {s : String} {l : List String} (h : VarInv s l) {v : String}
    (hv : pyLower v = v ∧ v.data.length ≠ s.data.length) : VarInv s (setAdd v l) := by
  obtain ⟨hnd, hs, hmem⟩ := h
  refine ⟨setAdd_nodup hnd v, mem_setAdd_of_mem v hs, ?_⟩
  intro x hx
  rcases mem_setAdd_cases hx with rfl | hx
  . exact Or.inr hv
  . exact hmem x hx

theorem pyLower_pyTitle (v : String) : pyLower (pyTitle v) = pyLower v :=
  congrArg String.mk (pyLowerL_pyTitleL v.data false)

theorem pyTitle_data_length (v : String) : (pyTitle v).data.length = v.data.length :=
  pyTitleL_length v.data false

theorem addval_ok (s : String) {a b : List Char}
    (hb : pyLowerL b = b) (hablen : a.length ≠ b.length) (hane : a ≠ [])
    (hcont : containsSub (pyLowerL s.data) a = true) :
    pyLower (String.mk (pyReplaceAll a b (pyLowerL s.data)))
        = String.mk (pyReplaceAll a b (pyLowerL s.data))
    ∧ (String.mk (pyReplaceAll a b (pyLowerL s.data))).data.length ≠ s.data.length := by
  constructor
  . exact congrArg String.mk
      (replaceAll_lower hb (pyLowerL s.data).length (pyLowerL s.data) (Nat.le_refl _)
        (pyLowerL_idem s.data))
  . show (pyReplaceAll a b (pyLowerL s.data)).length ≠ s.data.length
    have hlenL : (pyLowerL s.data).length = s.data.length := List.length_map _ _
    rcases Nat.lt_or_ge b.length a.length with hlt | hge
    . have hres := replaceAll_len_lt hlt (pyLowerL s.data).length (pyLowerL s.data)
        (Nat.le_refl _) hcont
      omega
    . have hgt : a.length < b.length := Nat.lt_of_le_of_ne hge hablen
      have hres := replaceAll_len_gt hane hgt (pyLowerL s.data).length (pyLowerL s.data)
        (Nat.le_refl _) hcont
      omega

theorem addval1_ok (s : String) {a b : List Char}
    (hb : pyLowerL b = b) (hablen : a.length < b.length) (hane : a ≠ [])
    (hcont : containsSub (pyLowerL s.data) a = true) :
    pyLower (String.mk (pyReplace1 a b (pyLowerL s.data)))
        = String.mk (pyReplace1 a b (pyLowerL s.data))
    ∧ (String.mk (pyReplace1 a b (pyLowerL s.data))).data.length ≠ s.data.length := by
  constructor
  . exact congrArg String.mk (replace1_lower hb (pyLowerL s.data) (pyLowerL_idem s.data))
  . show (pyReplace1 a b (pyLowerL s.data)).length ≠ s.data.length
    have hlenL : (pyLowerL s.data).length = s.data.length := List.length_map _ _
    have hres := replace1_len_gt hane hablen (pyLowerL s.data) hcont
    omega

theorem gen_variants_inv (s : String) :
    VarInv s (doubleChars.foldl (fun acc ch =>
      if containsSub (pyLowerL s.data) [ch] && !(containsSub (pyLowerL s.data) [ch, ch]) then
        setAdd (String.mk (pyReplace1 [ch] [ch, ch] (pyLowerL s.data)))
          (if containsSub (pyLowerL s.data) [ch, ch] then
            setAdd (String.mk (pyReplaceAll [ch, ch] [ch] (pyLowerL s.data))) acc
          else acc)
      else
        (if containsSub (pyLowerL s.data) [ch, ch] then
          setAdd (String.mk (pyReplaceAll [ch, ch] [ch] (pyLowerL s.data))) acc
        else acc))
      (substitutionPairs.foldl (fun acc pr =>
        if containsSub (pyLowerL s.data) pr.2.data then
          setAdd (String.mk (pyReplaceAll pr.2.data pr.1.data (pyLowerL s.data)))
            (if containsSub (pyLowerL s.data) pr.1.data then
              setAdd (String.mk (pyReplaceAll pr.1.data pr.2.data (pyLowerL s.data))) acc
            else acc)
        else
          (if containsSub (pyLowerL s.data) pr.1.data then
            setAdd (String.mk (pyReplaceAll pr.1.data pr.2.data (pyLowerL s.data))) acc
          else acc)) [s])) := by
  have htab : ∀ pr ∈ substitutionPairs, pr.1.data ≠ [] ∧ pr.2.data ≠ []
      ∧ pr.1.data.length ≠ pr.2.data.length
      ∧ pyLowerL pr.1.data = pr.1.data ∧ pyLowerL pr.2.data = pr.2.data := by decide
  have hdbl : ∀ c ∈ doubleChars, c.toLower = c := by decide
  have h0 : VarInv s [s] :=
    ⟨List.nodup_singleton s, List.mem_singleton_self s,
     fun v hv => Or.inl (List.mem_singleton.mp hv)⟩
  apply foldl_inv
  . intro acc ch hch hacc
    have hc := hdbl ch hch
    have hlc : pyLowerL [ch] = [ch] := by simp [pyLowerL, hc]
    have hlcc : pyLowerL [ch, ch] = [ch, ch] := by simp [pyLowerL, hc]
    split
    . rename_i hg1
      have hg1l : containsSub (pyLowerL s.data) [ch] = true :=
        (Bool.and_eq_true _ _ ▸ hg1).1
      split
      . rename_i hg2
        exact VarInv_setAdd (VarInv_setAdd hacc (addval_ok s hlc (by simp) (by simp) hg2))
          (addval1_ok s hlcc (by simp) (by simp) hg1l)
      . exact VarInv_setAdd hacc (addval1_ok s hlcc (by simp) (by simp) hg1l)
    . split
      . rename_i hg2
        exact VarInv_setAdd hacc (addval_ok s hlc (by simp) (by simp) hg2)
      . exact hacc
  . apply foldl_inv
    . intro acc pr hpr hacc
      obtain ⟨ho, hn, hlen, hlo, hln⟩ := htab pr hpr
      split
      . rename_i hg2
        split
        . rename_i hg1
          exact VarInv_setAdd (VarInv_setAdd hacc (addval_ok s hln hlen ho hg1))
            (addval_ok s hlo (fun hc => hlen hc.symm) hn hg2)
        . exact VarInv_setAdd hacc (addval_ok s hlo (fun hc => hlen hc.symm) hn hg2)
      . split
        . rename_i hg1
          exact VarInv_setAdd hacc (addval_ok s hln hlen ho hg1)
        . exact hacc
    . exact h0

theorem varInv_final {s : String} {M : List String} (h : VarInv s M) :
    (strSort (M.map pyTitle)).Nodup
    ∧ pyTitle s ∈ strSort (M.map pyTitle)
    ∧ pyLower (pyTitle s) = pyLower s := by
  obtain ⟨hnd, hsmem, hprop⟩ := h
  have hinj : ∀ x ∈ M, ∀ y ∈ M, pyTitle x = pyTitle y → x = y := by
    intro x hx y hy heq
    rcases hprop x hx with rfl | ⟨hlx, hlenx⟩
    . rcases hprop y hy with rfl | ⟨hly, hleny⟩
      . rfl
      . exfalso
        have hl1 : (pyTitle x).data.length = (pyTitle y).data.length := by rw [heq]
        rw [pyTitle_data_length, pyTitle_data_length] at hl1
        exact hleny hl1.symm
    . rcases hprop y hy with rfl | ⟨hly, hleny⟩
      . exfalso
        have hl1 : (pyTitle x).data.length = (pyTitle y).data.length := by rw [heq]
        rw [pyTitle_data_length, pyTitle_data_length] at hl1
        exact hlenx hl1
      . have h2 : pyLower (pyTitle x) = pyLower (pyTitle y) := by rw [heq]
        rw [pyLower_pyTitle, pyLower_pyTitle, hlx, hly] at h2
        exact h2
  have hmapnd : (M.map pyTitle).Nodup := List.Nodup.map_on hinj hnd
  refine ⟨((strSort_perm _).nodup_iff).mpr hmapnd, ?_, pyLower_pyTitle s⟩
  exact ((strSort_perm _).mem_iff).mpr (List.mem_map_of_mem pyTitle hsmem)

/-- C9: for every non-empty surname, `generate_name_variants` returns a
duplicate-free list containing the input rendered in title case (an element
equal to the input up to case normalisation). -/
theorem c9_variants_contain_input (s : String) (hne : s ≠ "") :
    (generate_name_variants s).Nodup
    ∧ pyTitle s ∈ generate_name_variants s
    ∧ pyLower (pyTitle s) = pyLower s :=
  varInv_final (gen_variants_inv s)

/-- Witness applying C9 at the surname `HERINCKX`. -/
theorem c9_variants_contain_input_witness :
    ("HERINCKX" : String) ≠ ""
    ∧ ((generate_name_variants "HERINCKX").Nodup
      ∧ pyTitle "HERINCKX" ∈ generate_name_variants "HERINCKX"
      ∧ pyLower (pyTitle "HERINCKX") = pyLower "HERINCKX") :=
  ⟨by decide, c9_variants_contain_input "HERINCKX" (by decide)⟩

end Genealogy
